import Mathlib

/-!
Shallow embedding of the DyGraL temporal-graph library
(`src/dygral/core.py` and `src/dygral/stream.py`) and proofs of the
specification claims about it.

Modelling conventions:
* Node identifiers are an arbitrary type `ν` with decidable equality
  (Python: any hashable value); attribute values are an arbitrary type `α`
  with decidable equality; an attribute mapping is an association list
  `List (String × α)` without duplicate keys, mirroring a Python dict.
* Timestamps are integers.  The code's `bisect_right(self._times, start - 1e-9)`
  is modelled as counting the stored times strictly below `start`, which is
  what that call computes on integer timestamps; sub-epsilon floating-point
  timestamps are outside the model.
* Python sets are modelled as duplicate-free lists built by
  insert-if-absent; set-valued facts are stated via membership.
* The repository only ever builds directed graphs (`directed=True` is the
  default and the only mode used anywhere); the embedding models the
  directed configuration, with snapshots as `networkx.DiGraph` values.
* `networkx` primitives used by the code (`DiGraph.add_edge`, `has_path`,
  `shortest_path`, `degree`, the exception hierarchy) are modelled from
  their documented behaviour; each such definition carries a comment
  saying exactly what is modelled.
-/

/-- Edge record `(t, u, v, attrs)` as stored in `TemporalGraph._edges`. -/
structure TEdge (ν α : Type) where
  t : Int
  u : ν
  v : ν
  attrs : List (String × α)
deriving DecidableEq, Repr

/-- Python set insertion: add `x` to the duplicate-free list `s` if absent. -/
def setAdd {ν : Type} [DecidableEq ν] (s : List ν) (x : ν) : List ν :=
  if x ∈ s then s else s ++ [x]

/-- `self._times.insert(bisect_right(self._times, t), t)`: insert `t` after
every element that is `≤ t`. -/
def insortRight (ts : List Int) (t : Int) : List Int :=
  match ts with
  | [] => [t]
  | s :: rest => if s ≤ t then s :: insortRight rest t else t :: s :: rest

/-- State of `TemporalGraph`: the append-only edge log `_edges`, the
`defaultdict` time index `_time_index` (empty bucket when the key was never
written), the node set `nodes` and the sorted timestamp list `_times`. -/
structure TemporalGraph (ν α : Type) where
  edges : List (TEdge ν α)
  time_index : Int → List Nat
  nodes : List ν
  times : List Int

namespace TemporalGraph

variable {ν α : Type} [DecidableEq ν] [DecidableEq α]

/-- A fresh `TemporalGraph()`. -/
def empty : TemporalGraph ν α :=
  { edges := [], time_index := fun _ => [], nodes := [], times := [] }

/-- `TemporalGraph.add_edge(u, v, t, **attrs)`. -/
def add_edge (g : TemporalGraph ν α) (u v : ν) (t : Int)
    (attrs : List (String × α)) : TemporalGraph ν α :=
  let idx := g.edges.length
  { edges := g.edges ++ [⟨t, u, v, attrs⟩]
    time_index := fun s => if s = t then g.time_index s ++ [idx] else g.time_index s
    nodes := setAdd (setAdd g.nodes u) v
    times := if t ∈ g.times then g.times else insortRight g.times t }

/-- `TemporalGraph.edges_between(start, end)`.  With both bounds unset it
returns the raw log; otherwise it slices the sorted timestamp list with
`bisect_right` (the `start - 1e-9` shift makes the lower bound strict-below
`start` on integer timestamps) and concatenates the per-timestamp index
buckets, looking each stored index up in the log. -/
def edges_between (g : TemporalGraph ν α) (start stop : Option Int) :
    List (TEdge ν α) :=
  match start, stop with
  | none, none => g.edges
  | _, _ =>
    let lo : Nat := match start with
      | none => 0
      | some s => g.times.countP (fun x => decide (x < s))
    let hi : Nat := match stop with
      | none => g.times.length
      | some e => g.times.countP (fun x => decide (x ≤ e))
    ((g.times.drop lo).take (hi - lo)).flatMap
      (fun t => (g.time_index t).filterMap (fun i => g.edges[i]?))

end TemporalGraph

/-- One `add_edge` call: `(u, v, t, attrs)`. -/
structure AddOp (ν α : Type) where
  u : ν
  v : ν
  t : Int
  attrs : List (String × α)
deriving DecidableEq, Repr

/-- Replay a sequence of `add_edge` calls against a fresh `TemporalGraph()`.
Every graph state the program can be in is `build ops` for some `ops`. -/
def build {ν α : Type} [DecidableEq ν] [DecidableEq α]
    (ops : List (AddOp ν α)) : TemporalGraph ν α :=
  ops.foldl (fun g o => g.add_edge o.u o.v o.t o.attrs) TemporalGraph.empty

section DiGraphModel

variable {ν α : Type} [DecidableEq ν] [DecidableEq α]

/-- Data stored on a structural edge of a snapshot: the `time` attribute plus
the remaining edge attributes (a Python dict). -/
structure SnapEdgeData (α : Type) where
  time : Int
  attrs : List (String × α)
deriving DecidableEq, Repr

/-- Python `d[k] = x` on a duplicate-key-free association list. -/
def setKey (d : List (String × α)) (k : String) (x : α) : List (String × α) :=
  match d with
  | [] => [(k, x)]
  | (k', x') :: rest =>
    if k' = k then (k, x) :: rest else (k', x') :: setKey rest k x

/-- Python `old.update(upd)`: keys of `upd` overwrite, other keys persist. -/
def dictUpdate (old upd : List (String × α)) : List (String × α) :=
  upd.foldl (fun d kv => setKey d kv.1 kv.2) old

/-- Modelled from networkx `DiGraph`: the node set (insertion order,
duplicate-free) and the adjacency as an association list keyed by the ordered
pair `(src, dst)`, one entry per pair. -/
structure DiGraph (ν α : Type) where
  nodeList : List ν
  adj : List (ν × ν × SnapEdgeData α)

/-- Modelled from networkx `DiGraph.add_edge(u, v, time=t, **attrs)`: if the
pair already has an entry its data dict is updated in place
(`datadict.update(attr)`), otherwise a fresh dict is filled from the
attributes; `time` is always overwritten. -/
def updateAdj : List (ν × ν × SnapEdgeData α) → ν → ν → Int →
    List (String × α) → List (ν × ν × SnapEdgeData α)
  | [], u, v, t, a => [(u, v, ⟨t, dictUpdate [] a⟩)]
  | (u', v', d) :: rest, u, v, t, a =>
    if u' = u ∧ v' = v then (u, v, ⟨t, dictUpdate d.attrs a⟩) :: rest
    else (u', v', d) :: updateAdj rest u v t a

namespace DiGraph

/-- networkx `DiGraph.add_edge`: registers both endpoints as nodes and
writes the adjacency entry. -/
def addEdge (G : DiGraph ν α) (u v : ν) (t : Int) (a : List (String × α)) :
    DiGraph ν α :=
  { nodeList := setAdd (setAdd G.nodeList u) v
    adj := updateAdj G.adj u v t a }

/-- `G[u][v]`: the data dict of the structural edge `(u, v)`, if present. -/
def lookupEdge (G : DiGraph ν α) (u v : ν) : Option (SnapEdgeData α) :=
  G.adj.findSome? (fun x => if x.1 = u ∧ x.2.1 = v then some x.2.2 else none)

/-- Successors of `u` in the adjacency (targets of structural edges). -/
def successors (G : DiGraph ν α) (u : ν) : List ν :=
  G.adj.filterMap (fun x => if x.1 = u then some x.2.1 else none)

/-- networkx `DiGraph.degree(node)`: out-degree plus in-degree, counting
structural edges (a self-loop counts twice). -/
def degreeOf (G : DiGraph ν α) (node : ν) : Nat :=
  G.adj.countP (fun x => decide (x.1 = node)) +
    G.adj.countP (fun x => decide (x.2.1 = node))

end DiGraph

end DiGraphModel

namespace TemporalGraph

variable {ν α : Type} [DecidableEq ν] [DecidableEq α]

/-- `TemporalGraph.snapshot(end_time, start_time)`: add every edge of
`edges_between(start_time, end_time)` to a fresh directed graph, with its
timestamp as the `time` edge attribute. -/
def snapshot (g : TemporalGraph ν α) (end_time : Option Int)
    (start_time : Option Int) : DiGraph ν α :=
  (g.edges_between start_time end_time).foldl
    (fun G e => G.addEdge e.u e.v e.t e.attrs) ⟨[], []⟩

end TemporalGraph

section NetworkxAlgorithms

variable {ν α : Type} [DecidableEq ν] [DecidableEq α]

/-- The networkx exceptions the queried algorithms can raise. -/
inductive NxErr : Type
  | nodeNotFound
  | noPath
deriving DecidableEq, Repr

/-- Whether the exception is an instance of `networkx.NetworkXError`.
In networkx, `class NodeNotFound(NetworkXException)` and
`NetworkXNoPath < NetworkXUnfeasible < NetworkXAlgorithmError <
NetworkXException` — neither derives from `NetworkXError`, so an
`except nx.NetworkXError` clause catches neither of them. -/
def NxErr.isNetworkXError : NxErr → Bool
  | .nodeNotFound => false
  | .noPath => false

/-- Depth-bounded search for a directed path from `u` to `v` using at most
`n` edges, following the adjacency in stored order. -/
def findPathN (G : DiGraph ν α) : Nat → ν → ν → Option (List ν)
  | 0, u, v => if u = v then some [u] else none
  | n + 1, u, v =>
    if u = v then some [u]
    else (G.successors u).findSome? (fun w => (findPathN G n w v).map (fun p => u :: p))

/-- Modelled from networkx `shortest_path(G, source, target)` (unweighted):
raises `NodeNotFound` when either endpoint is missing from `G`, otherwise
returns a directed path from source to target or raises `NetworkXNoPath`
when none exists.  A path of at most `|nodes|` edges suffices in a graph
whose adjacency endpoints are nodes, so the bounded search decides
existence; hop-minimality and tie-breaking of the returned path are not
modelled — no claim below depends on them. -/
def nxShortestPath (G : DiGraph ν α) (s t : ν) : Except NxErr (List ν) :=
  if s ∈ G.nodeList ∧ t ∈ G.nodeList then
    match findPathN G G.nodeList.length s t with
    | some p => .ok p
    | none => .error .noPath
  else .error .nodeNotFound

/-- Modelled from networkx `has_path(G, source, target)`: calls
`shortest_path` and converts `NetworkXNoPath` into `False`; a `NodeNotFound`
raised for a missing endpoint propagates. -/
def nxHasPath (G : DiGraph ν α) (s t : ν) : Except NxErr Bool :=
  match nxShortestPath G s t with
  | .ok _ => .ok true
  | .error .noPath => .ok false
  | .error e => .error e

end NetworkxAlgorithms

namespace TemporalGraph

variable {ν α : Type} [DecidableEq ν] [DecidableEq α]

/-- Window resolution shared by the query helpers:
`if window is not None: start, end = window else: start, end = None, at`. -/
def resolveWindow (at_ : Option Int) (window : Option (Int × Int)) :
    Option Int × Option Int :=
  match window with
  | some (s, e) => (some s, some e)
  | none => (none, at_)

/-- `TemporalGraph.reachable(source, target, at, window)`.  The result is in
`Except` because the `except nx.NetworkXError` clause does not catch the
`NodeNotFound` that `nx.has_path` raises for a missing endpoint. -/
def reachable (g : TemporalGraph ν α) (source target : ν)
    (at_ : Option Int) (window : Option (Int × Int)) : Except NxErr Bool :=
  let se := resolveWindow at_ window
  let G := g.snapshot se.2 se.1
  match nxHasPath G source target with
  | .ok b => .ok b
  | .error e => if e.isNetworkXError then .ok false else .error e

/-- `TemporalGraph.shortest_path(source, target, at, window)`: returns the
path plus the `time` attribute of each traversed structural edge, or
`none` for `(None, None)` — both `NetworkXNoPath` and `NodeNotFound` are
caught.  The per-edge lookups `G[u][v]["time"]` always succeed on a
returned path, so collecting them with `filterMap` loses nothing. -/
def shortest_path (g : TemporalGraph ν α) (source target : ν)
    (at_ : Option Int) (window : Option (Int × Int)) :
    Option (List ν × List Int) :=
  let se := resolveWindow at_ window
  let G := g.snapshot se.2 se.1
  match nxShortestPath G source target with
  | .ok path =>
    some (path, (path.zip path.tail).filterMap
      (fun uv => (G.lookupEdge uv.1 uv.2).map (fun d => d.time)))
  | .error _ => none

/-- `TemporalGraph.degree(node, at, window)`: `0` when the node is not in the
snapshot, its total (in plus out) degree otherwise. -/
def degree (g : TemporalGraph ν α) (node : ν)
    (at_ : Option Int) (window : Option (Int × Int)) : Nat :=
  let se := resolveWindow at_ window
  let G := g.snapshot se.2 se.1
  if node ∈ G.nodeList then G.degreeOf node else 0

end TemporalGraph

section Motifs

variable {ν α : Type} [DecidableEq ν] [DecidableEq α]

/-- `within is None or (t - last_time) <= within`. -/
def withinOk (within : Option Int) (t lastTime : Int) : Bool :=
  match within with
  | none => true
  | some w => decide (t - lastTime ≤ w)

/-- The inner `dfs` of `find_chain_motifs`, with its entry test
`len(path_nodes) == length` inlined at each call site: scan the sorted edges
strictly after the last used one; an edge extends the chain when its source
is the path's last node and it passes the `within` test; a path that reaches
`length` nodes is emitted and not extended further. -/
def dfsLoop (len : Nat) (within : Option Int) :
    List (TEdge ν α) → List ν → List Int → List (List ν × List Int)
  | [], _, _ => []
  | e :: rest, nodes, times =>
    (match nodes.getLast?, times.getLast? with
     | some lastNode, some lastTime =>
       if e.u = lastNode ∧ withinOk within e.t lastTime then
         if (nodes ++ [e.v]).length = len then [(nodes ++ [e.v], times ++ [e.t])]
         else dfsLoop len within rest (nodes ++ [e.v]) (times ++ [e.t])
       else []
     | _, _ => []) ++ dfsLoop len within rest nodes times

/-- The outer loop of `find_chain_motifs`: root a search at every edge `i`
with initial path `[u, v]` and times `[t, t]` (the root timestamp is stored
twice), again with the `dfs` entry test inlined. -/
def motifRoots (len : Nat) (within : Option Int) :
    List (TEdge ν α) → List (List ν × List Int)
  | [] => []
  | e :: rest =>
    (if ([e.u, e.v] : List ν).length = len then [([e.u, e.v], [e.t, e.t])]
     else dfsLoop len within rest [e.u, e.v] [e.t, e.t]) ++
      motifRoots len within rest

/-- `TemporalGraph.find_chain_motifs(length, within, window)`: collect the
edges of the resolved window, stably sort them by timestamp
(`edges.sort(key=lambda r: r[0])`; `insertionSort` computes the same stable
ascending order), and run the rooted searches in order. -/
def TemporalGraph.find_chain_motifs (g : TemporalGraph ν α) (len : Nat)
    (within : Option Int) (window : Option (Int × Int)) :
    List (List ν × List Int) :=
  let se : Option Int × Option Int := match window with
    | some (s, e) => (some s, some e)
    | none => (none, none)
  let edges := (g.edges_between se.1 se.2).insertionSort (fun a b => a.t ≤ b.t)
  motifRoots len within edges

end Motifs

section Stream

variable {ν α ε : Type} [DecidableEq ν] [DecidableEq α]

/-- A line printed by `GraphStream.ingest`'s `except` branch. -/
inductive StreamLog (ε : Type) : Type
  | warning (e : ε)

/-- `GraphStream`: the wrapped graph and the optional `on_update` callback.
A callback either returns normally or raises an exception of type `ε`. -/
structure GraphStream (ν α ε : Type) where
  graph : TemporalGraph ν α
  on_update : Option (ν → ν → Int → List (String × α) → Except ε Unit)

/-- `GraphStream.ingest(u, v, t, **attrs)`: add the edge to the graph, then
invoke the callback inside `try`/`except Exception`; a callback failure is
caught and a warning line is printed.  The outer `Except` is the Python
call's own outcome — an uncaught exception would surface as `.error`. -/
def GraphStream.ingest (s : GraphStream ν α ε) (u v : ν) (t : Int)
    (attrs : List (String × α)) :
    Except ε (GraphStream ν α ε × List (StreamLog ε)) :=
  let g' := s.graph.add_edge u v t attrs
  match s.on_update with
  | none => .ok (⟨g', s.on_update⟩, [])
  | some cb =>
    match cb u v t attrs with
    | .ok _ => .ok (⟨g', s.on_update⟩, [])
    | .error e => .ok (⟨g', s.on_update⟩, [.warning e])

end Stream

section CanonicalForms

variable {ν α : Type} [DecidableEq ν] [DecidableEq α]

/-- Membership test of a timestamp in the optional-bound window
(inclusive bounds, a missing bound is unbounded on that side). -/
def inWindowT (start stop : Option Int) (t : Int) : Bool :=
  (match start with | none => true | some s => decide (s ≤ t)) &&
    (match stop with | none => true | some e => decide (t ≤ e))

/-- Membership test of an edge record in the window. -/
def inWindowB (start stop : Option Int) (e : TEdge ν α) : Bool :=
  inWindowT start stop e.t

/-- The distinct timestamps of an edge list, in ascending order —
the canonical reading of the spec's "sorted timestamp sequence". -/
def distinctSortedTimes (L : List (TEdge ν α)) : List Int :=
  (L.map (fun e => e.t)).dedup.insertionSort (fun a b => a ≤ b)

/-- The spec's description of a bounded ranged query over a log: the
in-window edges grouped by ascending timestamp, in log order inside each
timestamp bucket. -/
def canonicalWindow (L : List (TEdge ν α)) (start stop : Option Int) :
    List (TEdge ν α) :=
  ((distinctSortedTimes L).filter (inWindowT start stop)).flatMap
    (fun t => L.filter (fun e => decide (e.t = t)))

/-- The log positions that hold an edge with timestamp `t`, in ascending
position order. -/
def idxWithTime (edges : List (TEdge ν α)) (t : Int) : List Nat :=
  (List.range edges.length).filter
    (fun i => match edges[i]? with
      | some e => decide (e.t = t)
      | none => false)

/-- A structural edge from `a` to `b` is present in the snapshot. -/
def DiGraph.hasEdge (G : DiGraph ν α) (a b : ν) : Prop :=
  (G.lookupEdge a b).isSome = true

/-- `p` is a directed path in `G` from `s` to `t`: nonempty, starts at `s`,
ends at `t`, and every consecutive pair is joined by a structural edge. -/
def IsPathList (G : DiGraph ν α) (p : List ν) (s t : ν) : Prop :=
  p.head? = some s ∧ p.getLast? = some t ∧
    List.Chain' (fun a b => G.hasEdge a b) p

/-- The adjacency-list core of `DiGraph.lookupEdge`. -/
def lookupA (A : List (ν × ν × SnapEdgeData α)) (u v : ν) :
    Option (SnapEdgeData α) :=
  A.findSome? (fun x => if x.1 = u ∧ x.2.1 = v then some x.2.2 else none)

/-- The snapshot fold: add every record of `L` to a fresh directed graph. -/
def snapBuild (L : List (TEdge ν α)) : DiGraph ν α :=
  L.foldl (fun G e => G.addEdge e.u e.v e.t e.attrs) ⟨[], []⟩

/-- The data dict that successive `DiGraph.add_edge` calls for one ordered
pair accumulate: each edge overwrites `time` and dict-updates the attributes. -/
def pairFold (L : List (TEdge ν α)) (u v : ν) : Option (SnapEdgeData α) :=
  (L.filter (fun e => decide (e.u = u) && decide (e.v = v))).foldl
    (fun acc e =>
      match acc with
      | none => some ⟨e.t, dictUpdate [] e.attrs⟩
      | some d => some ⟨e.t, dictUpdate d.attrs e.attrs⟩) none

end CanonicalForms

section BasicLemmas

variable {ν α : Type} [DecidableEq ν] [DecidableEq α]

theorem setAdd_mem {s : List ν} {x y : ν} : y ∈ setAdd s x ↔ y = x ∨ y ∈ s := by
  by_cases h : x ∈ s <;> simp [setAdd, h, or_comm] <;>
    exact fun hy => hy ▸ h

theorem setAdd_nodup {s : List ν} (h : s.Nodup) (x : ν) : (setAdd s x).Nodup := by
  by_cases hx : x ∈ s
  · simpa [setAdd, hx] using h
  · simp only [setAdd, if_neg hx]
    rw [List.nodup_append]
    exact ⟨h, List.nodup_singleton x, by simpa [List.disjoint_singleton] using hx⟩

theorem insortRight_mem {ts : List Int} {t a : Int} :
    a ∈ insortRight ts t ↔ a = t ∨ a ∈ ts := by
  induction ts with
  | nil => simp [insortRight]
  | cons s rest ih =>
    by_cases h : s ≤ t <;> simp [insortRight, h, ih] <;> tauto

theorem insortRight_sorted {ts : List Int} {t : Int}
    (hs : ts.Pairwise (· < ·)) (hn : t ∉ ts) :
    (insortRight ts t).Pairwise (· < ·) := by
  induction ts with
  | nil => simp [insortRight]
  | cons s rest ih =>
    rcases List.pairwise_cons.mp hs with ⟨hall, hrest⟩
    have hns : t ≠ s := fun h => hn (h ▸ List.mem_cons_self s rest)
    have hnr : t ∉ rest := fun h => hn (List.mem_cons_of_mem s h)
    by_cases h : s ≤ t
    · simp only [insortRight, if_pos h]
      refine List.pairwise_cons.mpr ⟨?_, ih hrest hnr⟩
      intro a ha
      rcases insortRight_mem.mp ha with rfl | ha
      · exact lt_of_le_of_ne h (Ne.symm hns)
      · exact hall a ha
    · simp only [insortRight, if_neg h]
      refine List.pairwise_cons.mpr ⟨?_, hs⟩
      intro a ha
      rcases List.mem_cons.mp ha with rfl | ha
      · omega
      · exact lt_trans (by omega) (hall a ha)

theorem findSome?_isSome_of_mem {β γ : Type} {l : List β} {f : β → Option γ}
    {x : β} (hx : x ∈ l) (h : (f x).isSome) : (l.findSome? f).isSome := by
  induction l with
  | nil => cases hx
  | cons a l ih =>
    cases hfa : f a with
    | none =>
      rw [List.findSome?_cons, hfa]
      rcases List.mem_cons.mp hx with h1 | h1
      · rw [h1, hfa] at h; simp at h
      · exact ih h1
    | some y =>
      rw [List.findSome?_cons, hfa]
      rfl

/-- Looking the positions of `idxWithTime` back up in the log gives the
per-timestamp filter of the log. -/
theorem idxWithTime_filterMap (L : List (TEdge ν α)) (s : Int) :
    (idxWithTime L s).filterMap (fun i => L[i]?) =
      L.filter (fun e => decide (e.t = s)) := by
  induction L with
  | nil => simp [idxWithTime]
  | cons a L ih =>
    have hsucc : (List.range (a :: L).length).filter
        (fun i => match (a :: L)[i]? with
          | some e => decide (e.t = s)
          | none => false) =
        ((if a.t = s then [0] else []) ++
          ((List.range L.length).filter
            (fun i => match L[i]? with
              | some e => decide (e.t = s)
              | none => false)).map Nat.succ) := by
      rw [List.length_cons, List.range_succ_eq_map, List.filter_cons, List.filter_map]
      have hpred : ((fun i => match (a :: L)[i]? with
            | some e => decide (e.t = s)
            | none => false) ∘ Nat.succ) =
          (fun i => match L[i]? with
            | some e => decide (e.t = s)
            | none => false) := by
        funext i
        simp [Function.comp, List.getElem?_cons_succ]
      rw [hpred]
      by_cases ha : a.t = s <;> simp [ha]
    unfold idxWithTime at ih ⊢
    rw [hsucc, List.filterMap_append, List.filterMap_map]
    have hcompose : ((fun i => (a :: L)[i]?) ∘ Nat.succ) = fun i => L[i]? := by
      funext i
      simp [Function.comp, List.getElem?_cons_succ]
    rw [hcompose, ih]
    by_cases ha : a.t = s <;> simp [List.filter_cons, ha]

theorem idxWithTime_lt {L : List (TEdge ν α)} {s : Int} {i : Nat}
    (h : i ∈ idxWithTime L s) : i < L.length := by
  unfold idxWithTime at h
  exact List.mem_range.mp (List.mem_filter.mp h).1

end BasicLemmas

section SliceLemmas

variable {ν α : Type} [DecidableEq ν] [DecidableEq α]

/-- On an ascending list, dropping the first `countP p` elements and taking
the next `countP q - countP p` selects exactly the elements passing `q` but
not `p`, for downward-closed `p` and `q` — the content of the
`bisect_right` slicing of the sorted timestamp list. -/
theorem sorted_slice_eq_filter :
    ∀ (L : List Int), L.Pairwise (· ≤ ·) →
      ∀ (p q : Int → Bool),
        (∀ x y : Int, x ≤ y → p y = true → p x = true) →
        (∀ x y : Int, x ≤ y → q y = true → q x = true) →
        (L.drop (L.countP p)).take (L.countP q - L.countP p) =
          L.filter (fun x => !p x && q x) := by
  intro L
  induction L with
  | nil => intro _ p q _ _; rfl
  | cons x L ih =>
    intro hs p q hp hq
    rcases List.pairwise_cons.mp hs with ⟨hx, hL⟩
    by_cases hpx : p x = true
    · by_cases hqx : q x = true
      · rw [List.countP_cons, List.countP_cons]
        simp only [hpx, hqx, if_pos]
        have hdrop : (x :: L).drop (L.countP p + 1) = L.drop (L.countP p) := by
          simp [List.drop_succ_cons]
        rw [hdrop]
        have harith : L.countP q + 1 - (L.countP p + 1) = L.countP q - L.countP p := by
          omega
        rw [harith, List.filter_cons]
        simp only [hpx, Bool.not_true, Bool.false_and, if_neg, Bool.false_eq_true,
          not_false_iff]
        exact ih hL p q hp hq
      · have hqL : L.countP q = 0 :=
          List.countP_eq_zero.mpr (fun a ha hqa => hqx (hq x a (hx a ha) hqa))
        rw [List.countP_cons, List.countP_cons]
        simp only [hpx, if_pos, hqx, if_neg, Bool.false_eq_true, not_false_iff]
        rw [hqL]
        have : (0 : Nat) - (L.countP p + 1 + 0) = 0 := by omega
        simp only [Nat.add_zero, Nat.zero_sub, List.take_zero]
        symm
        rw [List.filter_eq_nil_iff]
        intro a ha
        rcases List.mem_cons.mp ha with rfl | haL
        · simp [hqx]
        · have : q a = false := by
            cases hqa : q a
            · rfl
            · exact absurd (hq x a (hx a haL) hqa) hqx
          simp [this]
    · have hpL : L.countP p = 0 :=
        List.countP_eq_zero.mpr (fun a ha hpa => hpx (hp x a (hx a ha) hpa))
      rw [List.countP_cons, List.countP_cons, hpL]
      simp only [hpx, if_neg, Bool.false_eq_true, not_false_iff, Nat.zero_add, Nat.add_zero]
      by_cases hqx : q x = true
      · simp only [hqx, if_pos]
        rw [List.drop_zero, Nat.sub_zero, List.take_succ_cons, List.filter_cons]
        simp only [hpx, hqx]
        have ihq := ih hL p q hp hq
        rw [hpL, List.drop_zero, Nat.sub_zero] at ihq
        simp [ihq]
      · have hqL : L.countP q = 0 :=
          List.countP_eq_zero.mpr (fun a ha hqa => hqx (hq x a (hx a ha) hqa))
        simp only [hqx, if_neg, Bool.false_eq_true, not_false_iff, hqL, Nat.add_zero]
        rw [Nat.zero_sub, List.take_zero]
        symm
        rw [List.filter_eq_nil_iff]
        intro a ha
        rcases List.mem_cons.mp ha with rfl | haL
        · simp [hqx]
        · have : q a = false := by
            cases hqa : q a
            · rfl
            · exact absurd (hq x a (hx a haL) hqa) hqx
          simp [this]

/-- Filtering by a disjunction of disjoint tests permutes to the two filters
concatenated. -/
theorem filter_or_perm {β : Type} (p q : β → Bool) :
    ∀ (L : List β), (∀ x : β, ¬(p x = true ∧ q x = true)) →
      (L.filter (fun x => p x || q x)).Perm (L.filter p ++ L.filter q) := by
  intro L hdisj
  induction L with
  | nil => simp
  | cons a L ih =>
    by_cases hpa : p a = true
    · have hqa : q a = false := by
        cases hq : q a
        · rfl
        · exact absurd ⟨hpa, hq⟩ (hdisj a)
      simp only [List.filter_cons, hpa, hqa, Bool.true_or, if_pos, List.cons_append]
      exact ih.cons a
    · by_cases hqa : q a = true
      · simp only [List.filter_cons, hpa, hqa, Bool.false_or, if_pos, if_neg,
          Bool.false_eq_true, not_false_iff]
        exact (ih.cons a).trans List.perm_middle.symm
      · simp only [List.filter_cons, hpa, hqa, Bool.false_or, if_neg,
          Bool.false_eq_true, not_false_iff]
        exact ih

/-- Concatenating the per-key buckets over a duplicate-free key list is a
permutation of the filter by key membership. -/
theorem flatMap_group_perm {β : Type} (key : β → Int) :
    ∀ (T : List Int) (L : List β), T.Nodup →
      (T.flatMap (fun t => L.filter (fun e => decide (key e = t)))).Perm
        (L.filter (fun e => decide (key e ∈ T))) := by
  intro T
  induction T with
  | nil => intro L _; simp
  | cons t T ih =>
    intro L hnd
    rcases List.nodup_cons.mp hnd with ⟨hnt, hndT⟩
    rw [List.flatMap_cons]
    have hcongr : L.filter (fun e => decide (key e ∈ t :: T)) =
        L.filter (fun e => decide (key e = t) || decide (key e ∈ T)) := by
      apply List.filter_congr
      intro e _
      simp [List.mem_cons]
    have hsplit := filter_or_perm (fun e => decide (key e = t))
      (fun e => decide (key e ∈ T)) L
      (fun e he => hnt (by
        rcases he with ⟨h1, h2⟩
        have h1' : key e = t := of_decide_eq_true h1
        have h2' : key e ∈ T := of_decide_eq_true h2
        exact h1' ▸ h2'))
    rw [hcongr]
    exact (((ih L hndT).append_left _).trans hsplit.symm)

end SliceLemmas

section TimesLemmas

variable {ν α : Type} [DecidableEq ν] [DecidableEq α]

theorem distinctSortedTimes_sorted (L : List (TEdge ν α)) :
    (distinctSortedTimes L).Pairwise (fun a b => a ≤ b) := by
  unfold distinctSortedTimes
  exact List.sorted_insertionSort (fun a b => a ≤ b) ((L.map (fun e => e.t)).dedup)

theorem distinctSortedTimes_nodup (L : List (TEdge ν α)) :
    (distinctSortedTimes L).Nodup := by
  unfold distinctSortedTimes
  exact (List.perm_insertionSort (fun a b => a ≤ b) _).symm.nodup
    (List.nodup_dedup _)

theorem distinctSortedTimes_mem {L : List (TEdge ν α)} {t : Int} :
    t ∈ distinctSortedTimes L ↔ ∃ e ∈ L, e.t = t := by
  unfold distinctSortedTimes
  rw [(List.perm_insertionSort (fun a b => a ≤ b) _).mem_iff, List.mem_dedup,
    List.mem_map]

theorem distinctSortedTimes_sorted_lt (L : List (TEdge ν α)) :
    (distinctSortedTimes L).Pairwise (fun a b => a < b) := by
  have h1 := distinctSortedTimes_sorted L
  have h2 := distinctSortedTimes_nodup L
  exact (h1.and h2).imp (fun h => lt_of_le_of_ne h.1 h.2)

/-- Two strictly ascending integer lists with the same members are equal. -/
theorem eq_of_sorted_lt_of_mem_iff {l₁ l₂ : List Int}
    (h₁ : l₁.Pairwise (fun a b => a < b)) (h₂ : l₂.Pairwise (fun a b => a < b))
    (hm : ∀ a, a ∈ l₁ ↔ a ∈ l₂) : l₁ = l₂ := by
  have hn₁ : l₁.Nodup := h₁.imp (fun h => ne_of_lt h)
  have hn₂ : l₂.Nodup := h₂.imp (fun h => ne_of_lt h)
  have hperm : l₁.Perm l₂ := (List.perm_ext_iff_of_nodup hn₁ hn₂).mpr hm
  exact List.eq_of_perm_of_sorted hperm (h₁.imp (fun h => le_of_lt h))
    (h₂.imp (fun h => le_of_lt h))

end TimesLemmas

section StoreInvariant

variable {ν α : Type} [DecidableEq ν] [DecidableEq α]

/-- Invariant tying the four fields of a `TemporalGraph` state together:
it holds in every state reachable by `add_edge` calls from a fresh graph. -/
structure StoreInv (g : TemporalGraph ν α) : Prop where
  bucket : ∀ s : Int, g.time_index s = idxWithTime g.edges s
  times_sorted : g.times.Pairwise (fun a b => a < b)
  times_mem : ∀ t : Int, t ∈ g.times ↔ ∃ e ∈ g.edges, e.t = t
  nodes_mem : ∀ x : ν, x ∈ g.nodes ↔ ∃ e ∈ g.edges, x = e.u ∨ x = e.v

theorem storeInv_empty : StoreInv (TemporalGraph.empty : TemporalGraph ν α) := by
  refine ⟨?_, ?_, ?_, ?_⟩
  · intro s; simp [TemporalGraph.empty, idxWithTime]
  · simp [TemporalGraph.empty]
  · intro t; simp [TemporalGraph.empty]
  · intro x; simp [TemporalGraph.empty]

theorem idxWithTime_append (L : List (TEdge ν α)) (e0 : TEdge ν α) (s : Int) :
    idxWithTime (L ++ [e0]) s =
      idxWithTime L s ++ (if e0.t = s then [L.length] else []) := by
  unfold idxWithTime
  rw [List.length_append, List.length_singleton, List.range_succ, List.filter_append]
  congr 1
  · apply List.filter_congr
    intro i hi
    have hilt : i < L.length := List.mem_range.mp hi
    rw [List.getElem?_append_left hilt]
  · have hlast : (L ++ [e0])[L.length]? = some e0 := by
      rw [List.getElem?_append_right (Nat.le_refl _)]
      simp
    simp only [List.filter_cons, List.filter_nil, hlast]
    by_cases h : e0.t = s <;> simp [h]

theorem storeInv_add_edge {g : TemporalGraph ν α} (h : StoreInv g)
    (u v : ν) (t : Int) (attrs : List (String × α)) :
    StoreInv (g.add_edge u v t attrs) := by
  refine ⟨?_, ?_, ?_, ?_⟩
  · intro s
    show (if s = t then g.time_index s ++ [g.edges.length] else g.time_index s) =
      idxWithTime (g.edges ++ [⟨t, u, v, attrs⟩]) s
    rw [idxWithTime_append, ← h.bucket s]
    by_cases hst : s = t
    · subst hst; simp
    · have hts : t ≠ s := Ne.symm hst
      simp [hst, hts]
  · show (if t ∈ g.times then g.times else insortRight g.times t).Pairwise _
    by_cases hmem : t ∈ g.times
    · simpa [hmem] using h.times_sorted
    · simp only [hmem, if_neg, not_false_iff]
      exact insortRight_sorted h.times_sorted hmem
  · intro t'
    show t' ∈ (if t ∈ g.times then g.times else insortRight g.times t) ↔ _
    by_cases hmem : t ∈ g.times
    · rw [if_pos hmem, h.times_mem t']
      constructor
      · rintro ⟨e, he, rfl⟩; exact ⟨e, List.mem_append_left _ he, rfl⟩
      · rintro ⟨e, he, rfl⟩
        rcases List.mem_append.mp he with he | he
        · exact ⟨e, he, rfl⟩
        · rcases List.mem_singleton.mp he with rfl
          exact (h.times_mem t).mp hmem
    · rw [if_neg hmem, insortRight_mem, h.times_mem t']
      constructor
      · rintro (h1 | ⟨e, he, rfl⟩)
        · exact ⟨⟨t, u, v, attrs⟩, List.mem_append_right _ (List.mem_singleton_self _),
            h1.symm⟩
        · exact ⟨e, List.mem_append_left _ he, rfl⟩
      · rintro ⟨e, he, rfl⟩
        rcases List.mem_append.mp he with he | he
        · exact Or.inr ⟨e, he, rfl⟩
        · rcases List.mem_singleton.mp he with rfl
          exact Or.inl rfl
  · intro x
    show x ∈ setAdd (setAdd g.nodes u) v ↔ _
    rw [setAdd_mem, setAdd_mem, h.nodes_mem x]
    constructor
    · rintro (h1 | h2 | ⟨e, he, hx⟩)
      · exact ⟨⟨t, u, v, attrs⟩, List.mem_append_right _ (List.mem_singleton_self _),
          Or.inr h1⟩
      · exact ⟨⟨t, u, v, attrs⟩, List.mem_append_right _ (List.mem_singleton_self _),
          Or.inl h2⟩
      · exact ⟨e, List.mem_append_left _ he, hx⟩
    · rintro ⟨e, he, hx⟩
      rcases List.mem_append.mp he with he | he
      · exact Or.inr (Or.inr ⟨e, he, hx⟩)
      · rcases List.mem_singleton.mp he with rfl
        rcases hx with rfl | rfl
        · exact Or.inr (Or.inl rfl)
        · exact Or.inl rfl

/-- The invariant holds in every reachable state. -/
theorem storeInv_build (ops : List (AddOp ν α)) : StoreInv (build ops) := by
  suffices h : ∀ (g : TemporalGraph ν α), StoreInv g →
      StoreInv (ops.foldl (fun g o => g.add_edge o.u o.v o.t o.attrs) g) by
    exact h TemporalGraph.empty storeInv_empty
  induction ops with
  | nil => intro g hg; exact hg
  | cons o ops ih =>
    intro g hg
    exact ih _ (storeInv_add_edge hg o.u o.v o.t o.attrs)

/-- The edge log of a replayed sequence is exactly the sequence of calls:
`add_edge` always succeeds and appends one record per call. -/
theorem build_edges (ops : List (AddOp ν α)) :
    (build ops).edges = ops.map (fun o => ⟨o.t, o.u, o.v, o.attrs⟩) := by
  suffices h : ∀ (g : TemporalGraph ν α),
      (ops.foldl (fun g o => g.add_edge o.u o.v o.t o.attrs) g).edges =
        g.edges ++ ops.map (fun o => ⟨o.t, o.u, o.v, o.attrs⟩) by
    simpa [TemporalGraph.empty] using h TemporalGraph.empty
  induction ops with
  | nil => intro g; simp
  | cons o ops ih =>
    intro g
    rw [List.foldl_cons, ih, List.map_cons]
    show g.edges ++ [⟨o.t, o.u, o.v, o.attrs⟩] ++ _ = _
    rw [List.append_assoc]
    rfl

end StoreInvariant

section SnapshotLemmas

variable {ν α : Type} [DecidableEq ν] [DecidableEq α]

theorem lookupEdge_eq_lookupA (G : DiGraph ν α) (u v : ν) :
    G.lookupEdge u v = lookupA G.adj u v := rfl

theorem snapshot_eq_snapBuild (g : TemporalGraph ν α) (e s : Option Int) :
    g.snapshot e s = snapBuild (g.edges_between s e) := rfl

theorem snapBuild_concat (L : List (TEdge ν α)) (e : TEdge ν α) :
    snapBuild (L ++ [e]) = (snapBuild L).addEdge e.u e.v e.t e.attrs := by
  unfold snapBuild
  rw [List.foldl_append]
  rfl

theorem successors_mem (G : DiGraph ν α) (a b : ν) :
    b ∈ G.successors a ↔ ∃ x ∈ G.adj, x.1 = a ∧ x.2.1 = b := by
  unfold DiGraph.successors
  rw [List.mem_filterMap]
  constructor
  · rintro ⟨x, hx, hfx⟩
    by_cases h : x.1 = a
    · rw [if_pos h] at hfx
      exact ⟨x, hx, h, Option.some_injective _ hfx⟩
    · rw [if_neg h] at hfx; cases hfx
  · rintro ⟨x, hx, h1, h2⟩
    exact ⟨x, hx, by rw [if_pos h1, h2]⟩

theorem lookupA_isSome_iff (A : List (ν × ν × SnapEdgeData α)) (p q : ν) :
    (lookupA A p q).isSome ↔ ∃ x ∈ A, x.1 = p ∧ x.2.1 = q := by
  induction A with
  | nil => simp [lookupA]
  | cons x rest ih =>
    unfold lookupA at ih ⊢
    rw [List.findSome?_cons]
    by_cases h : x.1 = p ∧ x.2.1 = q
    · rw [if_pos h]
      simp only [Option.isSome_some, true_iff]
      exact ⟨x, List.mem_cons_self _ _, h⟩
    · rw [if_neg h, ih]
      constructor
      · rintro ⟨y, hy, hk⟩
        exact ⟨y, List.mem_cons_of_mem _ hy, hk⟩
      · rintro ⟨y, hy, hk⟩
        rcases List.mem_cons.mp hy with rfl | hy
        · exact absurd hk h
        · exact ⟨y, hy, hk⟩

theorem updateAdj_key_mem (A : List (ν × ν × SnapEdgeData α)) (u v p q : ν)
    (t : Int) (a : List (String × α)) :
    (∃ x ∈ updateAdj A u v t a, x.1 = p ∧ x.2.1 = q) ↔
      ((p = u ∧ q = v) ∨ ∃ x ∈ A, x.1 = p ∧ x.2.1 = q) := by
  induction A with
  | nil =>
    simp only [updateAdj, List.mem_singleton]
    constructor
    · rintro ⟨x, rfl, h1, h2⟩
      exact Or.inl ⟨h1.symm, h2.symm⟩
    · rintro (⟨h1, h2⟩ | ⟨x, hx, _⟩)
      · exact ⟨_, rfl, h1.symm, h2.symm⟩
      · cases hx
  | cons x rest ih =>
    obtain ⟨u', v', d⟩ := x
    by_cases h : u' = u ∧ v' = v
    · rw [updateAdj, if_pos h]
      constructor
      · rintro ⟨y, hy, hk⟩
        rcases List.mem_cons.mp hy with rfl | hy
        · exact Or.inl ⟨hk.1.symm, hk.2.symm⟩
        · exact Or.inr ⟨y, List.mem_cons_of_mem _ hy, hk⟩
      · rintro (⟨h1, h2⟩ | ⟨y, hy, hk⟩)
        · exact ⟨_, List.mem_cons_self _ _, h1.symm, h2.symm⟩
        · rcases List.mem_cons.mp hy with rfl | hy
          · exact ⟨_, List.mem_cons_self _ _, by
              simpa [h.1, h.2] using hk⟩
          · exact ⟨y, List.mem_cons_of_mem _ hy, hk⟩
    · rw [updateAdj, if_neg h]
      constructor
      · rintro ⟨y, hy, hk⟩
        rcases List.mem_cons.mp hy with rfl | hy
        · exact Or.inr ⟨_, List.mem_cons_self _ _, hk⟩
        · rcases (ih).mp ⟨y, hy, hk⟩ with h1 | ⟨z, hz, hk'⟩
          · exact Or.inl h1
          · exact Or.inr ⟨z, List.mem_cons_of_mem _ hz, hk'⟩
      · rintro (h1 | ⟨y, hy, hk⟩)
        · rcases (ih).mpr (Or.inl h1) with ⟨y, hy, hk⟩
          exact ⟨y, List.mem_cons_of_mem _ hy, hk⟩
        · rcases List.mem_cons.mp hy with rfl | hy
          · exact ⟨_, List.mem_cons_self _ _, hk⟩
          · rcases (ih).mpr (Or.inr ⟨y, hy, hk⟩) with ⟨z, hz, hk'⟩
            exact ⟨z, List.mem_cons_of_mem _ hz, hk'⟩

theorem updateAdj_entry_cases {A : List (ν × ν × SnapEdgeData α)} {u v : ν}
    {t : Int} {a : List (String × α)} {y : ν × ν × SnapEdgeData α}
    (hy : y ∈ updateAdj A u v t a) :
    (y.1 = u ∧ y.2.1 = v) ∨ ∃ x ∈ A, y.1 = x.1 ∧ y.2.1 = x.2.1 := by
  induction A with
  | nil =>
    rcases List.mem_singleton.mp hy with rfl
    exact Or.inl ⟨rfl, rfl⟩
  | cons x rest ih =>
    obtain ⟨u', v', d⟩ := x
    by_cases h : u' = u ∧ v' = v
    · rw [updateAdj, if_pos h] at hy
      rcases List.mem_cons.mp hy with rfl | hy
      · exact Or.inl ⟨rfl, rfl⟩
      · exact Or.inr ⟨y, List.mem_cons_of_mem _ hy, rfl, rfl⟩
    · rw [updateAdj, if_neg h] at hy
      rcases List.mem_cons.mp hy with rfl | hy
      · exact Or.inr ⟨_, List.mem_cons_self _ _, rfl, rfl⟩
      · rcases ih hy with h1 | ⟨z, hz, hk⟩
        · exact Or.inl h1
        · exact Or.inr ⟨z, List.mem_cons_of_mem _ hz, hk⟩

theorem lookupA_cons (x : ν × ν × SnapEdgeData α)
    (A : List (ν × ν × SnapEdgeData α)) (p q : ν) :
    lookupA (x :: A) p q =
      if x.1 = p ∧ x.2.1 = q then some x.2.2 else lookupA A p q := by
  unfold lookupA
  rw [List.findSome?_cons]
  by_cases h : x.1 = p ∧ x.2.1 = q
  · simp [h]
  · simp [h]

theorem lookupA_updateAdj (A : List (ν × ν × SnapEdgeData α)) (u v p q : ν)
    (t : Int) (a : List (String × α)) :
    lookupA (updateAdj A u v t a) p q =
      if p = u ∧ q = v then
        some ⟨t, match lookupA A u v with
          | none => dictUpdate [] a
          | some d => dictUpdate d.attrs a⟩
      else lookupA A p q := by
  induction A with
  | nil =>
    show lookupA [(u, v, ⟨t, dictUpdate [] a⟩)] p q = _
    rw [lookupA_cons]
    by_cases h : p = u ∧ q = v
    · rw [if_pos ⟨h.1.symm, h.2.symm⟩, if_pos h]
      rfl
    · rw [if_neg (fun hc => h ⟨hc.1.symm, hc.2.symm⟩), if_neg h]
  | cons x rest ih =>
    obtain ⟨u', v', d⟩ := x
    by_cases h : u' = u ∧ v' = v
    · rw [updateAdj, if_pos h, lookupA_cons, lookupA_cons]
      rw [if_pos (show (u', v', d).1 = u ∧ (u', v', d).2.1 = v from h)]
      by_cases hpq : p = u ∧ q = v
      · rw [if_pos ⟨hpq.1.symm, hpq.2.symm⟩, if_pos hpq]
      · have hx : ¬((u', v', d).1 = p ∧ (u', v', d).2.1 = q) := by
          intro hc
          exact hpq ⟨hc.1 ▸ h.1, hc.2 ▸ h.2⟩
        rw [if_neg (show ¬((u, v, (⟨t, dictUpdate d.attrs a⟩ : SnapEdgeData α)).1 = p ∧
            (u, v, (⟨t, dictUpdate d.attrs a⟩ : SnapEdgeData α)).2.1 = q) from
            fun hc => hpq ⟨hc.1.symm, hc.2.symm⟩), if_neg hpq, lookupA_cons, if_neg hx]
    · rw [updateAdj, if_neg h, lookupA_cons, lookupA_cons, lookupA_cons]
      have hAB : ¬((u', v', d).1 = u ∧ (u', v', d).2.1 = v) := fun hc => h ⟨hc.1, hc.2⟩
      rw [if_neg hAB]
      by_cases hx : (u', v', d).1 = p ∧ (u', v', d).2.1 = q
      · have hne : ¬(p = u ∧ q = v) := by
          rintro ⟨rfl, rfl⟩
          exact h ⟨hx.1, hx.2⟩
        rw [if_pos hx, if_pos hx, if_neg hne]
      · rw [if_neg hx, if_neg hx, ih]

end SnapshotLemmas

section SnapBuildLemmas

variable {ν α : Type} [DecidableEq ν] [DecidableEq α]

theorem snapBuild_nodes_mem (L : List (TEdge ν α)) (x : ν) :
    x ∈ (snapBuild L).nodeList ↔ ∃ e ∈ L, x = e.u ∨ x = e.v := by
  induction L using List.reverseRecOn with
  | nil => simp [snapBuild]
  | append_singleton L e ih =>
    rw [snapBuild_concat]
    show x ∈ setAdd (setAdd (snapBuild L).nodeList e.u) e.v ↔ _
    rw [setAdd_mem, setAdd_mem, ih]
    constructor
    · rintro (h1 | h2 | ⟨f, hf, hx⟩)
      · exact ⟨e, List.mem_append_right _ (List.mem_singleton_self _), Or.inr h1⟩
      · exact ⟨e, List.mem_append_right _ (List.mem_singleton_self _), Or.inl h2⟩
      · exact ⟨f, List.mem_append_left _ hf, hx⟩
    · rintro ⟨f, hf, hx⟩
      rcases List.mem_append.mp hf with hf | hf
      · exact Or.inr (Or.inr ⟨f, hf, hx⟩)
      · rcases List.mem_singleton.mp hf with rfl
        rcases hx with h | h
        · exact Or.inr (Or.inl h)
        · exact Or.inl h

theorem snapBuild_nodes_nodup (L : List (TEdge ν α)) :
    (snapBuild L).nodeList.Nodup := by
  induction L using List.reverseRecOn with
  | nil => simp [snapBuild]
  | append_singleton L e ih =>
    rw [snapBuild_concat]
    exact setAdd_nodup (setAdd_nodup ih e.u) e.v

theorem snapBuild_key_mem (L : List (TEdge ν α)) (p q : ν) :
    (∃ x ∈ (snapBuild L).adj, x.1 = p ∧ x.2.1 = q) ↔
      ∃ e ∈ L, e.u = p ∧ e.v = q := by
  induction L using List.reverseRecOn with
  | nil => simp [snapBuild]
  | append_singleton L e ih =>
    rw [snapBuild_concat]
    show (∃ x ∈ updateAdj (snapBuild L).adj e.u e.v e.t e.attrs,
      x.1 = p ∧ x.2.1 = q) ↔ _
    rw [updateAdj_key_mem, ih]
    constructor
    · rintro (⟨h1, h2⟩ | ⟨f, hf, hk⟩)
      · exact ⟨e, List.mem_append_right _ (List.mem_singleton_self _),
          h1.symm, h2.symm⟩
      · exact ⟨f, List.mem_append_left _ hf, hk⟩
    · rintro ⟨f, hf, hk⟩
      rcases List.mem_append.mp hf with hf | hf
      · exact Or.inr ⟨f, hf, hk⟩
      · rcases List.mem_singleton.mp hf with rfl
        exact Or.inl ⟨hk.1.symm, hk.2.symm⟩

theorem snapBuild_adj_endpoints (L : List (TEdge ν α)) :
    ∀ y ∈ (snapBuild L).adj,
      y.1 ∈ (snapBuild L).nodeList ∧ y.2.1 ∈ (snapBuild L).nodeList := by
  induction L using List.reverseRecOn with
  | nil => intro y hy; simp [snapBuild] at hy
  | append_singleton L e ih =>
    intro y hy
    rw [snapBuild_concat] at hy ⊢
    have hy' : y ∈ updateAdj (snapBuild L).adj e.u e.v e.t e.attrs := hy
    have hmem : ∀ z : ν, z ∈ (snapBuild L).nodeList ∨ z = e.u ∨ z = e.v →
        z ∈ setAdd (setAdd (snapBuild L).nodeList e.u) e.v := by
      intro z hz
      rw [setAdd_mem, setAdd_mem]
      tauto
    rcases updateAdj_entry_cases hy' with ⟨h1, h2⟩ | ⟨x, hx, h1, h2⟩
    · exact ⟨hmem _ (Or.inr (Or.inl h1)), hmem _ (Or.inr (Or.inr h2))⟩
    · rcases ih x hx with ⟨hx1, hx2⟩
      exact ⟨hmem _ (Or.inl (h1 ▸ hx1)), hmem _ (Or.inl (h2 ▸ hx2))⟩

theorem pairStep_eq (acc : Option (SnapEdgeData α)) (e0 : TEdge ν α) :
    (match acc with
      | none => some (⟨e0.t, dictUpdate [] e0.attrs⟩ : SnapEdgeData α)
      | some d => some ⟨e0.t, dictUpdate d.attrs e0.attrs⟩) =
    some ⟨e0.t, match acc with
      | none => dictUpdate [] e0.attrs
      | some d => dictUpdate d.attrs e0.attrs⟩ := by
  cases acc with
  | none => rfl
  | some d => rfl

theorem pairFold_concat (L : List (TEdge ν α)) (e0 : TEdge ν α) (u v : ν) :
    pairFold (L ++ [e0]) u v =
      if e0.u = u ∧ e0.v = v then
        some ⟨e0.t, match pairFold L u v with
          | none => dictUpdate [] e0.attrs
          | some d => dictUpdate d.attrs e0.attrs⟩
      else pairFold L u v := by
  unfold pairFold
  rw [List.filter_append]
  by_cases h : e0.u = u ∧ e0.v = v
  · have hb : (decide (e0.u = u) && decide (e0.v = v)) = true := by
      simp [h.1, h.2]
    rw [if_pos h]
    simp only [List.filter_cons, hb, if_pos, List.filter_nil]
    rw [List.foldl_append]
    exact pairStep_eq _ e0
  · have hb : (decide (e0.u = u) && decide (e0.v = v)) = false := by
      rcases Decidable.not_and_iff_or_not.mp h with h1 | h1 <;> simp [h1]
    rw [if_neg h]
    simp only [List.filter_cons, hb, Bool.false_eq_true, if_false, List.filter_nil,
      List.append_nil]

theorem snapBuild_lookup (L : List (TEdge ν α)) (u v : ν) :
    (snapBuild L).lookupEdge u v = pairFold L u v := by
  induction L using List.reverseRecOn with
  | nil => rfl
  | append_singleton L e ih =>
    rw [snapBuild_concat, pairFold_concat]
    show lookupA (updateAdj (snapBuild L).adj e.u e.v e.t e.attrs) u v = _
    rw [lookupA_updateAdj]
    rw [lookupEdge_eq_lookupA] at ih
    by_cases h : u = e.u ∧ v = e.v
    · obtain ⟨rfl, rfl⟩ := h
      rw [if_pos ⟨rfl, rfl⟩, if_pos ⟨rfl, rfl⟩, ih]
    · rw [if_neg h, if_neg (fun hc => h ⟨hc.1.symm, hc.2.symm⟩)]
      exact ih

/-- A pair has a surviving structural edge exactly when some processed record
joins it. -/
theorem snapBuild_lookup_isSome (L : List (TEdge ν α)) (u v : ν) :
    ((snapBuild L).lookupEdge u v).isSome ↔ ∃ e ∈ L, e.u = u ∧ e.v = v := by
  rw [lookupEdge_eq_lookupA, lookupA_isSome_iff, ← snapBuild_key_mem]

end SnapBuildLemmas

section EdgesBetweenLemmas

variable {ν α : Type} [DecidableEq ν] [DecidableEq α]

theorem times_eq_distinctSorted {g : TemporalGraph ν α} (hInv : StoreInv g) :
    g.times = distinctSortedTimes g.edges :=
  eq_of_sorted_lt_of_mem_iff hInv.times_sorted (distinctSortedTimes_sorted_lt _)
    (fun a => by rw [hInv.times_mem, distinctSortedTimes_mem])

/-- Core of the bounded `edges_between` path: the sorted-list slice between
the two `bisect_right` counts, bucket-expanded, is the canonical grouped
window form. -/
theorem slice_core {g : TemporalGraph ν α} (hInv : StoreInv g)
    (p q : Int → Bool)
    (hp : ∀ x y : Int, x ≤ y → p y = true → p x = true)
    (hq : ∀ x y : Int, x ≤ y → q y = true → q x = true) :
    ((g.times.drop (g.times.countP p)).take
        (g.times.countP q - g.times.countP p)).flatMap
      (fun t => (g.time_index t).filterMap (fun i => g.edges[i]?)) =
      ((distinctSortedTimes g.edges).filter (fun t => !p t && q t)).flatMap
        (fun t => g.edges.filter (fun e => decide (e.t = t))) := by
  have hsorted : g.times.Pairwise (fun a b => a ≤ b) :=
    hInv.times_sorted.imp (fun h => le_of_lt h)
  rw [sorted_slice_eq_filter g.times hsorted p q hp hq,
    times_eq_distinctSorted hInv]
  simp only [hInv.bucket, idxWithTime_filterMap]

theorem edges_between_bounded_eq_canonical {g : TemporalGraph ν α}
    (hInv : StoreInv g) (start stop : Option Int)
    (hbound : start ≠ none ∨ stop ≠ none) :
    g.edges_between start stop = canonicalWindow g.edges start stop := by
  unfold canonicalWindow
  rcases start with _ | s
  · rcases stop with _ | e
    · rcases hbound with h | h <;> exact absurd rfl h
    · show ((g.times.drop 0).take (g.times.countP (fun x => decide (x ≤ e)) - 0)).flatMap
        (fun t => (g.time_index t).filterMap (fun i => g.edges[i]?)) = _
      have h0 : (0 : Nat) = g.times.countP (fun _ => false) := by
        rw [List.countP_false]; rfl
      rw [h0]
      rw [slice_core hInv (fun _ => false) (fun x => decide (x ≤ e))
        (fun _ _ _ h => h) (fun x y hxy hy => by
          simp only [decide_eq_true_eq] at hy ⊢; omega)]
      have hw : ∀ t : Int, (!(false : Bool) && decide (t ≤ e)) =
          inWindowT none (some e) t := by
        intro t; unfold inWindowT; simp
      simp only [hw]
  · rcases stop with _ | e
    · show ((g.times.drop (g.times.countP (fun x => decide (x < s)))).take
        (g.times.length - g.times.countP (fun x => decide (x < s)))).flatMap
        (fun t => (g.time_index t).filterMap (fun i => g.edges[i]?)) = _
      have hlen : g.times.length = g.times.countP (fun _ => true) := by
        rw [List.countP_true]
      rw [hlen]
      rw [slice_core hInv (fun x => decide (x < s)) (fun _ => true)
        (fun x y hxy hy => by
          simp only [decide_eq_true_eq] at hy ⊢; omega) (fun _ _ _ h => h)]
      have hw : ∀ t : Int, (!(decide (t < s)) && true) =
          inWindowT (some s) none t := by
        intro t
        unfold inWindowT
        by_cases h1 : t < s
        · have h2 : ¬ s ≤ t := by omega
          simp [h1, h2]
        · have h2 : s ≤ t := by omega
          simp [h1, h2]
      simp only [hw]
    · show ((g.times.drop (g.times.countP (fun x => decide (x < s)))).take
        (g.times.countP (fun x => decide (x ≤ e)) -
          g.times.countP (fun x => decide (x < s)))).flatMap
        (fun t => (g.time_index t).filterMap (fun i => g.edges[i]?)) = _
      rw [slice_core hInv (fun x => decide (x < s)) (fun x => decide (x ≤ e))
        (fun x y hxy hy => by
          simp only [decide_eq_true_eq] at hy ⊢; omega)
        (fun x y hxy hy => by
          simp only [decide_eq_true_eq] at hy ⊢; omega)]
      have hw : ∀ t : Int, (!(decide (t < s)) && decide (t ≤ e)) =
          inWindowT (some s) (some e) t := by
        intro t
        unfold inWindowT
        by_cases h1 : t < s
        · have h2 : ¬ s ≤ t := by omega
          simp [h1, h2]
        · have h2 : s ≤ t := by omega
          simp [h1, h2]
      simp only [hw]

theorem canonicalWindow_perm (L : List (TEdge ν α)) (start stop : Option Int) :
    (canonicalWindow L start stop).Perm (L.filter (inWindowB start stop)) := by
  unfold canonicalWindow
  have hperm := flatMap_group_perm (fun e : TEdge ν α => e.t)
    ((distinctSortedTimes L).filter (inWindowT start stop)) L
    ((distinctSortedTimes_nodup L).filter _)
  refine hperm.trans ?_
  have heq : L.filter
      (fun e => decide (e.t ∈ (distinctSortedTimes L).filter (inWindowT start stop))) =
      L.filter (inWindowB start stop) := by
    apply List.filter_congr
    intro e he
    have hmemT : e.t ∈ distinctSortedTimes L := distinctSortedTimes_mem.mpr ⟨e, he, rfl⟩
    by_cases hw : inWindowT start stop e.t = true
    · have : e.t ∈ (distinctSortedTimes L).filter (inWindowT start stop) :=
        List.mem_filter.mpr ⟨hmemT, hw⟩
      simp [this, inWindowB, hw]
    · have : e.t ∉ (distinctSortedTimes L).filter (inWindowT start stop) := by
        intro hc
        exact hw (List.mem_filter.mp hc).2
      simp [this, inWindowB, hw]
  rw [heq]

theorem edges_between_none_none (g : TemporalGraph ν α) :
    g.edges_between none none = g.edges := rfl

theorem edges_between_mem {g : TemporalGraph ν α} (hInv : StoreInv g)
    (start stop : Option Int) (e : TEdge ν α) :
    e ∈ g.edges_between start stop ↔
      e ∈ g.edges ∧ inWindowB start stop e = true := by
  rcases hb : start with _ | s
  · rcases hb2 : stop with _ | e2
    · rw [edges_between_none_none]
      simp [inWindowB, inWindowT]
    · rw [edges_between_bounded_eq_canonical hInv none (some e2) (Or.inr (by simp)),
        (canonicalWindow_perm g.edges none (some e2)).mem_iff, List.mem_filter]
  · rw [edges_between_bounded_eq_canonical hInv (some s) stop (Or.inl (by simp)),
      (canonicalWindow_perm g.edges (some s) stop).mem_iff, List.mem_filter]

end EdgesBetweenLemmas

section PathLemmas

variable {ν α : Type} [DecidableEq ν] [DecidableEq α]

theorem hasEdge_iff_successor (G : DiGraph ν α) (a b : ν) :
    G.hasEdge a b ↔ b ∈ G.successors a := by
  rw [DiGraph.hasEdge, lookupEdge_eq_lookupA, lookupA_isSome_iff, successors_mem]

theorem findPathN_sound {G : DiGraph ν α} :
    ∀ (n : Nat) (u v : ν) (p : List ν), findPathN G n u v = some p →
      p.head? = some u ∧ p.getLast? = some v ∧
        List.Chain' (fun a b => G.hasEdge a b) p ∧ p.length ≤ n + 1 := by
  intro n
  induction n with
  | zero =>
    intro u v p h
    unfold findPathN at h
    by_cases huv : u = v
    · rw [if_pos huv] at h
      cases h
      exact ⟨rfl, by simp [huv], List.chain'_singleton u, by simp⟩
    · rw [if_neg huv] at h
      cases h
  | succ n ih =>
    intro u v p h
    unfold findPathN at h
    by_cases huv : u = v
    · rw [if_pos huv] at h
      cases h
      exact ⟨rfl, by simp [huv], List.chain'_singleton u, by simp⟩
    · rw [if_neg huv] at h
      obtain ⟨w, hw, hfw⟩ := List.exists_of_findSome?_eq_some h
      obtain ⟨q, hq, rfl⟩ := Option.map_eq_some'.mp hfw
      obtain ⟨hq1, hq2, hq3, hq4⟩ := ih w v q hq
      rcases q with _ | ⟨q0, q'⟩
      · cases hq1
      · have hq0 : q0 = w := by
          injection hq1
        refine ⟨rfl, ?_, ?_, ?_⟩
        · rw [List.getLast?_cons_cons]
          exact hq2
        · rw [List.chain'_cons]
          constructor
          · rw [hq0]
            exact (hasEdge_iff_successor G u w).mpr hw
          · exact hq3
        · simp only [List.length_cons] at hq4 ⊢
          omega

theorem findPathN_complete {G : DiGraph ν α} :
    ∀ (n : Nat) (p : List ν) (u v : ν), p.head? = some u → p.getLast? = some v →
      List.Chain' (fun a b => G.hasEdge a b) p → p.length ≤ n + 1 →
      (findPathN G n u v).isSome := by
  intro n
  induction n with
  | zero =>
    intro p u v hh hl _ hlen
    rcases p with _ | ⟨x, p'⟩
    · cases hh
    · rcases p' with _ | ⟨y, p''⟩
      · have hx : x = u := by injection hh
        have hv : x = v := by
          rw [List.getLast?_singleton] at hl
          injection hl
        unfold findPathN
        rw [if_pos (hx ▸ hv ▸ rfl : u = v)]
        rfl
      · simp at hlen
  | succ n ih =>
    intro p u v hh hl hc hlen
    rcases p with _ | ⟨x, p'⟩
    · cases hh
    · have hx : x = u := by injection hh
      subst hx
      rcases p' with _ | ⟨y, p''⟩
      · have hv : x = v := by
          rw [List.getLast?_singleton] at hl
          injection hl
        unfold findPathN
        rw [if_pos hv]
        rfl
      · unfold findPathN
        by_cases huv : x = v
        · rw [if_pos huv]; rfl
        · rw [if_neg huv]
          have hadj : G.hasEdge x y := (List.chain'_cons.mp hc).1
          have hymem : y ∈ G.successors x := (hasEdge_iff_successor G x y).mp hadj
          have hrec : (findPathN G n y v).isSome := by
            apply ih (y :: p'') y v rfl
            · rw [List.getLast?_cons_cons] at hl
              exact hl
            · exact (List.chain'_cons.mp hc).2
            · simp only [List.length_cons] at hlen ⊢
              omega
          apply findSome?_isSome_of_mem hymem
          rw [Option.isSome_map']
          exact hrec

theorem nodeCount_mono {G1 G2 : DiGraph ν α} (h1 : G1.nodeList.Nodup)
    (hsub : G1.nodeList ⊆ G2.nodeList) :
    G1.nodeList.length ≤ G2.nodeList.length :=
  (List.subperm_of_subset h1 hsub).length_le

/-- `nx.has_path` returns `True` exactly when both endpoints are present and
the bounded search succeeds. -/
theorem nxHasPath_ok_true_iff (G : DiGraph ν α) (s t : ν) :
    nxHasPath G s t = .ok true ↔
      s ∈ G.nodeList ∧ t ∈ G.nodeList ∧
        (findPathN G G.nodeList.length s t).isSome := by
  unfold nxHasPath nxShortestPath
  by_cases h : s ∈ G.nodeList ∧ t ∈ G.nodeList
  · rw [if_pos h]
    cases hf : findPathN G G.nodeList.length s t with
    | some p => simp [h, hf]
    | none => simp [h, hf]
  · rw [if_neg h]
    constructor
    · intro hc; cases hc
    · rintro ⟨h1, h2, _⟩
      exact absurd ⟨h1, h2⟩ h

theorem reachable_ok_true_iff (g : TemporalGraph ν α) (s t : ν)
    (at_ : Option Int) (window : Option (Int × Int)) :
    g.reachable s t at_ window = .ok true ↔
      nxHasPath (g.snapshot (TemporalGraph.resolveWindow at_ window).2
        (TemporalGraph.resolveWindow at_ window).1) s t = .ok true := by
  unfold TemporalGraph.reachable
  cases h : nxHasPath (g.snapshot (TemporalGraph.resolveWindow at_ window).2
      (TemporalGraph.resolveWindow at_ window).1) s t with
  | ok b => simp [h]
  | error e =>
    cases e <;> simp [h, NxErr.isNetworkXError]

end PathLemmas

section SnapshotTransfer

variable {ν α : Type} [DecidableEq ν] [DecidableEq α]

theorem snapshot_hasEdge_iff {g : TemporalGraph ν α} (hInv : StoreInv g)
    (start stop : Option Int) (a b : ν) :
    (g.snapshot stop start).hasEdge a b ↔
      ∃ e ∈ g.edges, inWindowB start stop e = true ∧ e.u = a ∧ e.v = b := by
  unfold DiGraph.hasEdge
  rw [snapshot_eq_snapBuild]
  constructor
  · intro hh
    obtain ⟨e, he, hk⟩ := (snapBuild_lookup_isSome _ a b).mp hh
    obtain ⟨heL, hw⟩ := (edges_between_mem hInv start stop e).mp he
    exact ⟨e, heL, hw, hk⟩
  · rintro ⟨e, he, hw, hk⟩
    exact (snapBuild_lookup_isSome _ a b).mpr
      ⟨e, (edges_between_mem hInv start stop e).mpr ⟨he, hw⟩, hk⟩

theorem snapshot_node_iff {g : TemporalGraph ν α} (hInv : StoreInv g)
    (start stop : Option Int) (x : ν) :
    x ∈ (g.snapshot stop start).nodeList ↔
      ∃ e ∈ g.edges, inWindowB start stop e = true ∧ (x = e.u ∨ x = e.v) := by
  rw [snapshot_eq_snapBuild, snapBuild_nodes_mem]
  constructor
  · rintro ⟨e, he, hx⟩
    obtain ⟨heL, hw⟩ := (edges_between_mem hInv start stop e).mp he
    exact ⟨e, heL, hw, hx⟩
  · rintro ⟨e, he, hw, hx⟩
    exact ⟨e, (edges_between_mem hInv start stop e).mpr ⟨he, hw⟩, hx⟩

theorem snapshot_nodes_nodup (g : TemporalGraph ν α) (start stop : Option Int) :
    (g.snapshot stop start).nodeList.Nodup := by
  rw [snapshot_eq_snapBuild]
  exact snapBuild_nodes_nodup _

theorem inWindow_at_mono {t1 t2 : Int} (h : t1 ≤ t2) {e : TEdge ν α}
    (hw : inWindowB none (some t1) e = true) :
    inWindowB none (some t2) e = true := by
  unfold inWindowB inWindowT at hw ⊢
  simp only [Bool.true_and, decide_eq_true_eq] at hw ⊢
  omega

theorem reachable_at_ok_true_iff (g : TemporalGraph ν α) (s t : ν) (ti : Int) :
    g.reachable s t (some ti) none = .ok true ↔
      nxHasPath (g.snapshot (some ti) none) s t = .ok true :=
  reachable_ok_true_iff g s t (some ti) none

end SnapshotTransfer

/-- C3: for all nodes and instants `t1 ≤ t2`, a `reachable(source, target,
at=t1)` call that returns `True` implies `reachable(source, target, at=t2)`
also returns `True`: the snapshot for the later instant contains every edge
and node of the earlier one. -/
theorem C3_reachable_monotone {ν α : Type} [DecidableEq ν] [DecidableEq α]
    (ops : List (AddOp ν α)) (source target : ν) (t1 t2 : Int)
    (h12 : t1 ≤ t2)
    (h1 : (build ops).reachable source target (some t1) none = .ok true) :
    (build ops).reachable source target (some t2) none = .ok true := by
  have hInv := storeInv_build ops
  rw [reachable_at_ok_true_iff, nxHasPath_ok_true_iff] at h1 ⊢
  obtain ⟨hs1, ht1, hfind1⟩ := h1
  have hnode : ∀ x : ν, x ∈ ((build ops).snapshot (some t1) none).nodeList →
      x ∈ ((build ops).snapshot (some t2) none).nodeList := by
    intro x hx
    rw [snapshot_node_iff hInv] at hx ⊢
    obtain ⟨e, he, hw, hx⟩ := hx
    exact ⟨e, he, inWindow_at_mono h12 hw, hx⟩
  have hedge : ∀ a b : ν, ((build ops).snapshot (some t1) none).hasEdge a b →
      ((build ops).snapshot (some t2) none).hasEdge a b := by
    intro a b hab
    rw [snapshot_hasEdge_iff hInv] at hab ⊢
    obtain ⟨e, he, hw, hk⟩ := hab
    exact ⟨e, he, inWindow_at_mono h12 hw, hk⟩
  obtain ⟨p, hp⟩ := Option.isSome_iff_exists.mp hfind1
  obtain ⟨hh, hl, hc, hlen⟩ := findPathN_sound _ source target p hp
  have hc2 : List.Chain'
      (fun a b => ((build ops).snapshot (some t2) none).hasEdge a b) p :=
    hc.imp (fun {a b} h => hedge a b h)
  have hlenle : ((build ops).snapshot (some t1) none).nodeList.length ≤
      ((build ops).snapshot (some t2) none).nodeList.length :=
    nodeCount_mono (snapshot_nodes_nodup _ none (some t1)) (fun x hx => hnode x hx)
  refine ⟨hnode _ hs1, hnode _ ht1, ?_⟩
  exact findPathN_complete _ p source target hh hl hc2 (by omega)

/-- Witness for C3 at a concrete input: one edge `A -> B` at time `1`;
reachability holds at `t = 1` and hence at `t = 2`. -/
theorem C3_reachable_monotone_witness :
    (1 : Int) ≤ 2 ∧
      (build [⟨"A", "B", 1, ([] : List (String × Int))⟩]).reachable "A" "B"
        (some 1) none = .ok true ∧
      (build [⟨"A", "B", 1, ([] : List (String × Int))⟩]).reachable "A" "B"
        (some 2) none = .ok true :=
  ⟨by decide, by rfl,
    C3_reachable_monotone [⟨"A", "B", 1, []⟩] "A" "B" 1 2 (by decide) (by rfl)⟩

/-- C1 (code bug): with edge `A -> B` at `t = 1`, the query
`reachable("A", "C", at=1)` raises networkx `NodeNotFound` instead of
returning `False`: `nx.has_path` raises `NodeNotFound` for the absent
endpoint and the `except nx.NetworkXError` clause does not catch it, since
`NodeNotFound` derives from `NetworkXException`, not `NetworkXError`. -/
theorem C1_missing_endpoint_raises :
    (build [⟨"A", "B", 1, ([] : List (String × Int))⟩]).reachable "A" "C"
      (some 1) none = .error NxErr.nodeNotFound := by
  rfl

section ShortestPathLemmas

variable {ν α : Type} [DecidableEq ν] [DecidableEq α]

theorem shortest_path_eq (g : TemporalGraph ν α) (s t : ν) (at_ : Option Int)
    (window : Option (Int × Int)) :
    g.shortest_path s t at_ window =
      (match nxShortestPath (g.snapshot (TemporalGraph.resolveWindow at_ window).2
          (TemporalGraph.resolveWindow at_ window).1) s t with
        | .ok path => some (path, (path.zip path.tail).filterMap
            (fun uv => ((g.snapshot (TemporalGraph.resolveWindow at_ window).2
              (TemporalGraph.resolveWindow at_ window).1).lookupEdge uv.1 uv.2).map
              (fun d => d.time)))
        | .error _ => none) := rfl

theorem nxShortestPath_ok_imp {G : DiGraph ν α} {s t : ν} {p : List ν}
    (h : nxShortestPath G s t = .ok p) :
    s ∈ G.nodeList ∧ t ∈ G.nodeList ∧
      findPathN G G.nodeList.length s t = some p := by
  unfold nxShortestPath at h
  by_cases hm : s ∈ G.nodeList ∧ t ∈ G.nodeList
  · rw [if_pos hm] at h
    cases hf : findPathN G G.nodeList.length s t with
    | some q =>
      rw [hf] at h
      injection h with h
      exact ⟨hm.1, hm.2, by rw [h]⟩
    | none =>
      rw [hf] at h
      cases h
  · rw [if_neg hm] at h
    cases h

theorem chain'_zip_pairs {R : ν → ν → Prop} :
    ∀ (p : List ν), List.Chain' R p → ∀ x ∈ p.zip p.tail, R x.1 x.2 := by
  intro p
  induction p with
  | nil => intro _ x hx; simp at hx
  | cons a q ih =>
    intro hc x hx
    rcases q with _ | ⟨b, q'⟩
    · simp at hx
    · rw [List.tail_cons, List.zip_cons_cons] at hx
      rcases List.mem_cons.mp hx with rfl | hx
      · exact (List.chain'_cons.mp hc).1
      · exact ih (List.chain'_cons.mp hc).2 x hx

theorem filterMap_length_all_isSome {β γ : Type} (f : β → Option γ) :
    ∀ (l : List β), (∀ x ∈ l, (f x).isSome) → (l.filterMap f).length = l.length := by
  intro l
  induction l with
  | nil => intro _; rfl
  | cons a l ih =>
    intro hall
    have hrest := ih (fun x hx => hall x (List.mem_cons_of_mem _ hx))
    cases hfa : f a with
    | none =>
      have := hall a (List.mem_cons_self _ _)
      rw [hfa] at this
      cases this
    | some b => simp [List.filterMap_cons, hfa, hrest]

end ShortestPathLemmas

/-- C5: when `shortest_path` returns a non-absent result, the path is a
directed path of the resolved snapshot from source to target and the time
list has exactly `len(path) - 1` entries; when either endpoint is unknown to
the snapshot or no path exists, the call returns the absent result
`(None, None)` without raising (both `NetworkXNoPath` and `NodeNotFound` are
caught). -/
theorem C5_shortest_path {ν α : Type} [DecidableEq ν] [DecidableEq α]
    (ops : List (AddOp ν α)) (source target : ν) (at_ : Option Int)
    (window : Option (Int × Int)) :
    (∀ (p : List ν) (ts : List Int),
      (build ops).shortest_path source target at_ window = some (p, ts) →
        IsPathList ((build ops).snapshot (TemporalGraph.resolveWindow at_ window).2
          (TemporalGraph.resolveWindow at_ window).1) p source target ∧
          ts.length = p.length - 1) ∧
    ((source ∉ ((build ops).snapshot (TemporalGraph.resolveWindow at_ window).2
        (TemporalGraph.resolveWindow at_ window).1).nodeList ∨
      target ∉ ((build ops).snapshot (TemporalGraph.resolveWindow at_ window).2
        (TemporalGraph.resolveWindow at_ window).1).nodeList ∨
      ¬∃ p : List ν, IsPathList ((build ops).snapshot
        (TemporalGraph.resolveWindow at_ window).2
        (TemporalGraph.resolveWindow at_ window).1) p source target) →
      (build ops).shortest_path source target at_ window = none) := by
  constructor
  · intro p ts hres
    rw [shortest_path_eq] at hres
    cases hsp : nxShortestPath ((build ops).snapshot
        (TemporalGraph.resolveWindow at_ window).2
        (TemporalGraph.resolveWindow at_ window).1) source target with
    | error e =>
      rw [hsp] at hres
      exact Option.noConfusion hres
    | ok path =>
      rw [hsp] at hres
      have hres' := Option.some.inj hres
      have hp : path = p := congrArg Prod.fst hres'
      have hts : (path.zip path.tail).filterMap
          (fun uv => (((build ops).snapshot
            (TemporalGraph.resolveWindow at_ window).2
            (TemporalGraph.resolveWindow at_ window).1).lookupEdge uv.1 uv.2).map
            (fun d => d.time)) = ts := congrArg Prod.snd hres'
      subst hp
      obtain ⟨hs, ht, hfind⟩ := nxShortestPath_ok_imp hsp
      obtain ⟨hh, hl, hc, _⟩ := findPathN_sound _ source target path hfind
      refine ⟨⟨hh, hl, hc⟩, ?_⟩
      rw [← hts]
      have hall : ∀ x ∈ path.zip path.tail,
          ((((build ops).snapshot (TemporalGraph.resolveWindow at_ window).2
            (TemporalGraph.resolveWindow at_ window).1).lookupEdge x.1 x.2).map
            (fun d => d.time)).isSome := by
        intro x hx
        rw [Option.isSome_map']
        exact chain'_zip_pairs path hc x hx
      rw [filterMap_length_all_isSome _ _ hall, List.length_zip, List.length_tail]
      omega
  · intro habs
    rw [shortest_path_eq]
    cases hsp : nxShortestPath ((build ops).snapshot
        (TemporalGraph.resolveWindow at_ window).2
        (TemporalGraph.resolveWindow at_ window).1) source target with
    | error e => rfl
    | ok path =>
      exfalso
      obtain ⟨hs, ht, hfind⟩ := nxShortestPath_ok_imp hsp
      obtain ⟨hh, hl, hc, _⟩ := findPathN_sound _ source target path hfind
      rcases habs with h1 | h2 | h3
      · exact h1 hs
      · exact h2 ht
      · exact h3 ⟨path, hh, hl, hc⟩

/-- Witness for C5 at concrete inputs: edges `X -> Y` at `1` and `Y -> Z` at
`5`; at `t = 6` the returned path `[X, Y, Z]` is a snapshot path with two
edge times, and a query to the unknown node `Q` returns the absent result. -/
theorem C5_shortest_path_witness :
    (IsPathList ((build [⟨"X", "Y", 1, ([] : List (String × Int))⟩,
        ⟨"Y", "Z", 5, []⟩]).snapshot (some 6) none) ["X", "Y", "Z"] "X" "Z" ∧
      ([1, 5] : List Int).length = (["X", "Y", "Z"] : List String).length - 1) ∧
    (build [⟨"X", "Y", 1, ([] : List (String × Int))⟩,
      ⟨"Y", "Z", 5, []⟩]).shortest_path "X" "Q" (some 6) none = none :=
  ⟨(C5_shortest_path [⟨"X", "Y", 1, []⟩, ⟨"Y", "Z", 5, []⟩] "X" "Z"
      (some 6) none).1 ["X", "Y", "Z"] [1, 5] (by rfl),
    (C5_shortest_path [⟨"X", "Y", 1, []⟩, ⟨"Y", "Z", 5, []⟩] "X" "Q"
      (some 6) none).2 (Or.inr (Or.inl (by decide)))⟩

section DegreeLemmas

variable {ν α : Type} [DecidableEq ν] [DecidableEq α]

theorem degree_eq (g : TemporalGraph ν α) (node : ν) (at_ : Option Int)
    (window : Option (Int × Int)) :
    g.degree node at_ window =
      if node ∈ (g.snapshot (TemporalGraph.resolveWindow at_ window).2
          (TemporalGraph.resolveWindow at_ window).1).nodeList
      then (g.snapshot (TemporalGraph.resolveWindow at_ window).2
        (TemporalGraph.resolveWindow at_ window).1).degreeOf node
      else 0 := rfl

theorem degreeOf_eq_zero_iff (G : DiGraph ν α) (node : ν) :
    G.degreeOf node = 0 ↔ ¬∃ x ∈ G.adj, x.1 = node ∨ x.2.1 = node := by
  unfold DiGraph.degreeOf
  rw [Nat.add_eq_zero, List.countP_eq_zero, List.countP_eq_zero]
  constructor
  · rintro ⟨h1, h2⟩ ⟨x, hx, hor⟩
    rcases hor with h | h
    · exact h1 x hx (by simp [h])
    · exact h2 x hx (by simp [h])
  · intro h
    constructor
    · intro x hx hpx
      exact h ⟨x, hx, Or.inl (of_decide_eq_true hpx)⟩
    · intro x hx hpx
      exact h ⟨x, hx, Or.inr (of_decide_eq_true hpx)⟩

theorem degreeOf_zero_of_not_node {G : DiGraph ν α}
    (hend : ∀ y ∈ G.adj, y.1 ∈ G.nodeList ∧ y.2.1 ∈ G.nodeList)
    {node : ν} (h : node ∉ G.nodeList) : G.degreeOf node = 0 := by
  rw [degreeOf_eq_zero_iff]
  rintro ⟨x, hx, hor⟩
  rcases hor with h1 | h1
  · exact h (h1 ▸ (hend x hx).1)
  · exact h (h1 ▸ (hend x hx).2)

theorem snapshot_touch_iff {g : TemporalGraph ν α} (hInv : StoreInv g)
    (start stop : Option Int) (node : ν) :
    (∃ x ∈ (g.snapshot stop start).adj, x.1 = node ∨ x.2.1 = node) ↔
      ∃ e ∈ g.edges, inWindowB start stop e = true ∧
        (node = e.u ∨ node = e.v) := by
  rw [snapshot_eq_snapBuild]
  constructor
  · rintro ⟨x, hx, hor⟩
    obtain ⟨e, he, h1, h2⟩ :=
      (snapBuild_key_mem (g.edges_between start stop) x.1 x.2.1).mp ⟨x, hx, rfl, rfl⟩
    obtain ⟨heL, hw⟩ := (edges_between_mem hInv start stop e).mp he
    refine ⟨e, heL, hw, ?_⟩
    rcases hor with h | h
    · exact Or.inl (by rw [← h, ← h1])
    · exact Or.inr (by rw [← h, ← h2])
  · rintro ⟨e, he, hw, hor⟩
    have heW : e ∈ g.edges_between start stop :=
      (edges_between_mem hInv start stop e).mpr ⟨he, hw⟩
    obtain ⟨x, hx, h1, h2⟩ :=
      (snapBuild_key_mem (g.edges_between start stop) e.u e.v).mpr ⟨e, heW, rfl, rfl⟩
    refine ⟨x, hx, ?_⟩
    rcases hor with h | h
    · exact Or.inl (by rw [h1, ← h])
    · exact Or.inr (by rw [h2, ← h])

end DegreeLemmas

/-- C7: `degree(node, at or window)` always equals the node's total
(in plus out) degree in the resolved snapshot, and it is `0` exactly when the
node is not an endpoint of any edge whose timestamp lies in the resolved
window. -/
theorem C7_degree {ν α : Type} [DecidableEq ν] [DecidableEq α]
    (ops : List (AddOp ν α)) (node : ν) (at_ : Option Int)
    (window : Option (Int × Int)) :
    (build ops).degree node at_ window =
      ((build ops).snapshot (TemporalGraph.resolveWindow at_ window).2
        (TemporalGraph.resolveWindow at_ window).1).degreeOf node ∧
    ((build ops).degree node at_ window = 0 ↔
      ¬∃ e ∈ (build ops).edges,
        inWindowB (TemporalGraph.resolveWindow at_ window).1
          (TemporalGraph.resolveWindow at_ window).2 e = true ∧
          (node = e.u ∨ node = e.v)) := by
  have hInv := storeInv_build ops
  have hend : ∀ y ∈ ((build ops).snapshot
      (TemporalGraph.resolveWindow at_ window).2
      (TemporalGraph.resolveWindow at_ window).1).adj,
      y.1 ∈ ((build ops).snapshot (TemporalGraph.resolveWindow at_ window).2
        (TemporalGraph.resolveWindow at_ window).1).nodeList ∧
      y.2.1 ∈ ((build ops).snapshot (TemporalGraph.resolveWindow at_ window).2
        (TemporalGraph.resolveWindow at_ window).1).nodeList :=
    snapBuild_adj_endpoints _
  have hA : (build ops).degree node at_ window =
      ((build ops).snapshot (TemporalGraph.resolveWindow at_ window).2
        (TemporalGraph.resolveWindow at_ window).1).degreeOf node := by
    rw [degree_eq]
    by_cases hmem : node ∈ ((build ops).snapshot
        (TemporalGraph.resolveWindow at_ window).2
        (TemporalGraph.resolveWindow at_ window).1).nodeList
    · rw [if_pos hmem]
    · rw [if_neg hmem, degreeOf_zero_of_not_node hend hmem]
  refine ⟨hA, ?_⟩
  rw [hA, degreeOf_eq_zero_iff, snapshot_touch_iff hInv]

section IndexLemmas

variable {ν α : Type} [DecidableEq ν] [DecidableEq α]

theorem idxWithTime_ne_nil_iff (L : List (TEdge ν α)) (t : Int) :
    idxWithTime L t ≠ [] ↔ ∃ e ∈ L, e.t = t := by
  constructor
  · intro h
    obtain ⟨i, hi⟩ := List.exists_mem_of_ne_nil _ h
    have hmem := List.mem_filter.mp hi
    cases hge : L[i]? with
    | none =>
      have := hmem.2
      rw [hge] at this
      cases this
    | some e =>
      have het : e.t = t := by
        have h2 := hmem.2
        rw [hge] at h2
        exact of_decide_eq_true h2
      exact ⟨e, List.getElem?_mem hge, het⟩
  · rintro ⟨e, he, het⟩
    obtain ⟨i, hlt, hgi⟩ := List.getElem_of_mem he
    apply List.ne_nil_of_mem (a := i)
    rw [idxWithTime, List.mem_filter]
    refine ⟨List.mem_range.mpr hlt, ?_⟩
    rw [List.getElem?_eq_getElem hlt, hgi]
    exact decide_eq_true het

end IndexLemmas

/-- C9: invariants of the edge store after any finite sequence of
`add_edge` calls from a fresh graph: the sorted timestamp list is strictly
ascending (each distinct timestamp exactly once); a timestamp is in it
exactly when its time-index bucket is nonempty; each bucket holds exactly
the log positions bearing its timestamp, each once, in position order; the
node set is exactly the endpoints of the logged edges; and the log is
exactly the call sequence (`add_edge` never fails, duplicate calls append
distinct entries). -/
theorem C9_store_invariants {ν α : Type} [DecidableEq ν] [DecidableEq α]
    (ops : List (AddOp ν α)) :
    (build ops).times.Pairwise (fun a b => a < b) ∧
    (∀ t : Int, t ∈ (build ops).times ↔ (build ops).time_index t ≠ []) ∧
    (∀ t : Int, (build ops).time_index t = idxWithTime (build ops).edges t) ∧
    (∀ x : ν, x ∈ (build ops).nodes ↔
      ∃ e ∈ (build ops).edges, x = e.u ∨ x = e.v) ∧
    (build ops).edges = ops.map (fun o => ⟨o.t, o.u, o.v, o.attrs⟩) := by
  have hInv := storeInv_build ops
  refine ⟨hInv.times_sorted, ?_, hInv.bucket, hInv.nodes_mem, build_edges ops⟩
  intro t
  rw [hInv.times_mem, hInv.bucket, idxWithTime_ne_nil_iff]

/-- C2: `edges_between` yields only in-window edges (inclusive bounds,
missing bound unbounded); with no bounds it is exactly the full log in
insertion order; with either bound set it is the canonical grouped form —
in-window edges in ascending-timestamp order and in insertion order inside
each timestamp bucket — and in particular a permutation of the in-window
filter of the log. -/
theorem C2_edges_between {ν α : Type} [DecidableEq ν] [DecidableEq α]
    (ops : List (AddOp ν α)) (start stop : Option Int) :
    (∀ e ∈ (build ops).edges_between start stop,
      inWindowB start stop e = true) ∧
    ((build ops).edges_between none none = (build ops).edges) ∧
    (start ≠ none ∨ stop ≠ none →
      (build ops).edges_between start stop =
        canonicalWindow (build ops).edges start stop ∧
      ((build ops).edges_between start stop).Perm
        ((build ops).edges.filter (inWindowB start stop))) := by
  have hInv := storeInv_build ops
  refine ⟨?_, rfl, ?_⟩
  · intro e he
    exact ((edges_between_mem hInv start stop e).mp he).2
  · intro hb
    have heq := edges_between_bounded_eq_canonical hInv start stop hb
    refine ⟨heq, ?_⟩
    rw [heq]
    exact canonicalWindow_perm (build ops).edges start stop

/-- Witness for C2 at a concrete input: two edges inserted out of time
order; with the upper bound `5` the ranged query equals the canonical
grouped form and permutes the in-window filter, and the unbounded query is
the raw log. -/
theorem C2_edges_between_witness :
    inWindowB none (some 5)
      (⟨1, "B", "C", []⟩ : TEdge String Int) = true ∧
    (build [⟨"A", "B", 3, ([] : List (String × Int))⟩, ⟨"B", "C", 1, []⟩]).edges_between
      none none =
      (build [⟨"A", "B", 3, ([] : List (String × Int))⟩, ⟨"B", "C", 1, []⟩]).edges ∧
    ((build [⟨"A", "B", 3, ([] : List (String × Int))⟩, ⟨"B", "C", 1, []⟩]).edges_between
        none (some 5) =
      canonicalWindow
        (build [⟨"A", "B", 3, ([] : List (String × Int))⟩, ⟨"B", "C", 1, []⟩]).edges
        none (some 5) ∧
      ((build [⟨"A", "B", 3, ([] : List (String × Int))⟩, ⟨"B", "C", 1, []⟩]).edges_between
          none (some 5)).Perm
        ((build [⟨"A", "B", 3, ([] : List (String × Int))⟩, ⟨"B", "C", 1, []⟩]).edges.filter
          (inWindowB none (some 5)))) :=
  ⟨(C2_edges_between [⟨"A", "B", 3, []⟩, ⟨"B", "C", 1, []⟩] none (some 5)).1
      ⟨1, "B", "C", []⟩ (by decide),
    (C2_edges_between [⟨"A", "B", 3, []⟩, ⟨"B", "C", 1, []⟩] none none).2.1,
    (C2_edges_between [⟨"A", "B", 3, []⟩, ⟨"B", "C", 1, []⟩] none (some 5)).2.2
      (Or.inr (by decide))⟩

section PairFoldLemmas

variable {ν α : Type} [DecidableEq ν] [DecidableEq α]

theorem foldl_pairStep_time :
    ∀ (M : List (TEdge ν α)) (acc : Option (SnapEdgeData α))
      (d : SnapEdgeData α) (e : TEdge ν α),
      M.getLast? = some e →
      M.foldl (fun acc e =>
        match acc with
        | none => some (⟨e.t, dictUpdate [] e.attrs⟩ : SnapEdgeData α)
        | some d => some ⟨e.t, dictUpdate d.attrs e.attrs⟩) acc = some d →
      d.time = e.t := by
  intro M
  induction M using List.reverseRecOn with
  | nil =>
    intro acc d e he _
    cases he
  | append_singleton M x ih =>
    intro acc d e he hf
    rw [List.getLast?_concat] at he
    injection he with he
    rw [List.foldl_append, List.foldl_cons, List.foldl_nil] at hf
    cases hacc : M.foldl (fun acc e =>
        match acc with
        | none => some (⟨e.t, dictUpdate [] e.attrs⟩ : SnapEdgeData α)
        | some d => some ⟨e.t, dictUpdate d.attrs e.attrs⟩) acc with
    | none =>
      rw [hacc] at hf
      injection hf with hf
      rw [← hf, ← he]
    | some dd =>
      rw [hacc] at hf
      injection hf with hf
      rw [← hf, ← he]

theorem pairFold_time {L : List (TEdge ν α)} {u v : ν} {d : SnapEdgeData α}
    (hd : pairFold L u v = some d) {e : TEdge ν α}
    (he : (L.filter (fun e => decide (e.u = u) && decide (e.v = v))).getLast? =
      some e) :
    d.time = e.t := by
  unfold pairFold at hd
  exact foldl_pairStep_time _ none d e he hd

end PairFoldLemmas

/-- C4 counterexample: edges `u -> v` at time `1` with attribute `a = 0` and
`u -> v` at time `2` with no attributes.  In the snapshot up to time `2` the
structural edge carries time `2` but still the attribute `a = 0` from the
FIRST temporal edge (networkx `add_edge` dict-updates the existing data
dict), while the last processed temporal edge has an empty attribute map —
so the edge does not carry "the attributes of the last such temporal edge". -/
theorem C4_counterexample :
    ((build [⟨"u", "v", 1, [("a", (0 : Int))]⟩,
        ⟨"u", "v", 2, []⟩]).snapshot (some 2) none).lookupEdge "u" "v" =
      some ⟨2, [("a", 0)]⟩ ∧
    (((build [⟨"u", "v", 1, [("a", (0 : Int))]⟩,
        ⟨"u", "v", 2, []⟩]).edges_between none (some 2)).filter
        (fun e => decide (e.u = "u") && decide (e.v = "v"))).getLast? =
      some ⟨2, "u", "v", []⟩ ∧
    (⟨2, [("a", 0)]⟩ : SnapEdgeData Int) ≠ ⟨2, []⟩ := by
  refine ⟨by rfl, by rfl, ?_⟩
  decide

/-- C4 amended: the structural edge for an ordered pair exists exactly when
the window contains a temporal edge for that pair; it carries the time of
the LAST such temporal edge in processing (ascending-time) order, but its
attribute dict is the dict-update merge of ALL those edges' attributes in
processing order — later edges' keys overwrite, keys present only in
earlier edges persist. -/
theorem C4_last_write_amended {ν α : Type} [DecidableEq ν] [DecidableEq α]
    (ops : List (AddOp ν α)) (start stop : Option Int) (u v : ν) :
    ((build ops).snapshot stop start).lookupEdge u v =
      pairFold ((build ops).edges_between start stop) u v ∧
    (∀ d : SnapEdgeData α,
      ((build ops).snapshot stop start).lookupEdge u v = some d →
      ∀ e : TEdge ν α,
        (((build ops).edges_between start stop).filter
          (fun e => decide (e.u = u) && decide (e.v = v))).getLast? = some e →
        d.time = e.t) := by
  have h1 : ((build ops).snapshot stop start).lookupEdge u v =
      pairFold ((build ops).edges_between start stop) u v := by
    rw [snapshot_eq_snapBuild]
    exact snapBuild_lookup _ u v
  refine ⟨h1, ?_⟩
  intro d hd e he
  rw [h1] at hd
  exact pairFold_time hd he

/-- Witness for C4 amended at the counterexample input: the lookup equals
the pair fold, and the stored time is the last pair edge's time `2`. -/
theorem C4_last_write_amended_witness :
    ((build [⟨"u", "v", 1, [("a", (0 : Int))]⟩,
        ⟨"u", "v", 2, []⟩]).snapshot (some 2) none).lookupEdge "u" "v" =
      pairFold ((build [⟨"u", "v", 1, [("a", (0 : Int))]⟩,
        ⟨"u", "v", 2, []⟩]).edges_between none (some 2)) "u" "v" ∧
    (⟨2, [("a", (0 : Int))]⟩ : SnapEdgeData Int).time =
      (⟨2, "u", "v", []⟩ : TEdge String Int).t :=
  ⟨(C4_last_write_amended [⟨"u", "v", 1, [("a", 0)]⟩, ⟨"u", "v", 2, []⟩]
      none (some 2) "u" "v").1,
    (C4_last_write_amended [⟨"u", "v", 1, [("a", 0)]⟩, ⟨"u", "v", 2, []⟩]
      none (some 2) "u" "v").2 ⟨2, [("a", 0)]⟩ (by rfl) ⟨2, "u", "v", []⟩ (by rfl)⟩

/-- C8: `GraphStream.ingest` appends the edge exactly as `add_edge` would
regardless of the callback's outcome, never propagates a callback
exception (the call always returns normally), and logs one warning when the
callback raises. -/
theorem C8_ingest_callback {ν α ε : Type} [DecidableEq ν] [DecidableEq α]
    (s : GraphStream ν α ε) (u v : ν) (t : Int) (attrs : List (String × α)) :
    (s.on_update = none →
      s.ingest u v t attrs =
        .ok (⟨s.graph.add_edge u v t attrs, s.on_update⟩, [])) ∧
    (∀ cb, s.on_update = some cb →
      (∀ r, cb u v t attrs = .ok r →
        s.ingest u v t attrs =
          .ok (⟨s.graph.add_edge u v t attrs, s.on_update⟩, [])) ∧
      (∀ er, cb u v t attrs = .error er →
        s.ingest u v t attrs =
          .ok (⟨s.graph.add_edge u v t attrs, s.on_update⟩,
            [.warning er]))) := by
  obtain ⟨g0, ou⟩ := s
  constructor
  · intro hnone
    have h1 : ou = none := hnone
    subst h1
    rfl
  · intro cb hcb
    have h1 : ou = some cb := hcb
    subst h1
    constructor
    · intro r hr
      show (match cb u v t attrs with
        | Except.ok _ =>
          Except.ok ((⟨g0.add_edge u v t attrs, some cb⟩ : GraphStream ν α ε),
            ([] : List (StreamLog ε)))
        | Except.error e =>
          Except.ok ((⟨g0.add_edge u v t attrs, some cb⟩ : GraphStream ν α ε),
            [StreamLog.warning e])) = _
      rw [hr]
    · intro er her
      show (match cb u v t attrs with
        | Except.ok _ =>
          Except.ok ((⟨g0.add_edge u v t attrs, some cb⟩ : GraphStream ν α ε),
            ([] : List (StreamLog ε)))
        | Except.error e =>
          Except.ok ((⟨g0.add_edge u v t attrs, some cb⟩ : GraphStream ν α ε),
            [StreamLog.warning e])) = _
      rw [her]

/-- Witness for C8 at a concrete input: a stream over a fresh graph with a
callback that always raises; ingesting `X -> Y` at `10` still returns
normally with the edge appended and one warning logged. -/
theorem C8_ingest_callback_witness :
    (GraphStream.ingest
        ⟨(TemporalGraph.empty : TemporalGraph String Int),
          some (fun _ _ _ _ => Except.error "boom")⟩ "X" "Y" 10 []) =
      .ok (⟨TemporalGraph.empty.add_edge "X" "Y" 10 [],
        some (fun _ _ _ _ => Except.error "boom")⟩, [.warning "boom"]) :=
  ((C8_ingest_callback
      ⟨(TemporalGraph.empty : TemporalGraph String Int),
        some (fun _ _ _ _ => Except.error "boom")⟩ "X" "Y" 10 []).2
    (fun _ _ _ _ => Except.error "boom") rfl).2 "boom" rfl

section MotifLemmas

variable {ν α : Type} [DecidableEq ν] [DecidableEq α]

/-- Shape invariant of the motif search: node and time lists stay the same
length, keep at least two entries, and keep their first two time entries
equal; an emitted motif therefore has exactly `len` nodes, `len` times, and
equal first two times. -/
theorem dfsLoop_shape {len : Nat} {within : Option Int} :
    ∀ (rest : List (TEdge ν α)) (nodes : List ν) (times : List Int),
      nodes.length = times.length → 2 ≤ times.length →
      times[0]? = times[1]? →
      ∀ m ∈ dfsLoop len within rest nodes times,
        m.1.length = len ∧ m.2.length = len ∧ m.2[0]? = m.2[1]? := by
  intro rest
  induction rest with
  | nil =>
    intro nodes times _ _ _ m hm
    simp [dfsLoop] at hm
  | cons e rest ih =>
    intro nodes times hlen h2 hfirst m hm
    rw [dfsLoop] at hm
    rcases List.mem_append.mp hm with hm1 | hm1
    · cases hnl : nodes.getLast? with
      | none =>
        simp only [hnl] at hm1
        simp at hm1
      | some lastNode =>
        cases htl : times.getLast? with
        | none =>
          simp only [hnl, htl] at hm1
          simp at hm1
        | some lastTime =>
          simp only [hnl, htl] at hm1
          split at hm1
          · split at hm1
            · rename_i hguard hemit
              rcases List.mem_singleton.mp hm1 with rfl
              have h0 : (0 : Nat) < times.length := by omega
              have h1 : (1 : Nat) < times.length := by omega
              refine ⟨hemit, ?_, ?_⟩
              · simp only [List.length_append, List.length_singleton] at hemit ⊢
                omega
              · show (times ++ [e.t])[0]? = (times ++ [e.t])[1]?
                rw [List.getElem?_append_left h0, List.getElem?_append_left h1]
                exact hfirst
            · have h0 : (0 : Nat) < times.length := by omega
              have h1 : (1 : Nat) < times.length := by omega
              refine ih (nodes ++ [e.v]) (times ++ [e.t]) ?_ ?_ ?_ m hm1
              · simp [hlen]
              · simp only [List.length_append, List.length_singleton]
                omega
              · show (times ++ [e.t])[0]? = (times ++ [e.t])[1]?
                rw [List.getElem?_append_left h0, List.getElem?_append_left h1]
                exact hfirst
          · simp at hm1
    · exact ih nodes times hlen h2 hfirst m hm1

/-- Time invariant of the motif search: over a time-sorted remainder whose
entries are all at or after the path's last time, the accumulated time list
stays non-decreasing and its tail stays `within`-bounded pairwise. -/
theorem dfsLoop_times {len : Nat} {within : Option Int} :
    ∀ (rest : List (TEdge ν α)) (nodes : List ν) (times : List Int)
      (lastTime : Int),
      times.getLast? = some lastTime →
      2 ≤ times.length →
      List.Chain' (fun a b : Int => a ≤ b) times →
      (∀ w : Int, within = some w →
        List.Chain' (fun a b : Int => b - a ≤ w) times.tail) →
      rest.Pairwise (fun a b : TEdge ν α => a.t ≤ b.t) →
      (∀ f ∈ rest, lastTime ≤ f.t) →
      ∀ m ∈ dfsLoop len within rest nodes times,
        List.Chain' (fun a b : Int => a ≤ b) m.2 ∧
        ∀ w : Int, within = some w →
          List.Chain' (fun a b : Int => b - a ≤ w) m.2.tail := by
  intro rest
  induction rest with
  | nil =>
    intro nodes times lastTime _ _ _ _ _ _ m hm
    simp [dfsLoop] at hm
  | cons e rest ih =>
    intro nodes times lastTime hlast h2 hchain htail hsorted hlow m hm
    rw [dfsLoop] at hm
    have hsorted' := (List.pairwise_cons.mp hsorted).2
    have hhead := (List.pairwise_cons.mp hsorted).1
    rcases List.mem_append.mp hm with hm1 | hm1
    · cases hnl : nodes.getLast? with
      | none =>
        simp only [hnl] at hm1
        simp at hm1
      | some lastNode =>
        cases htlval : times.getLast? with
        | none =>
          simp only [hnl, htlval] at hm1
          simp at hm1
        | some lt' =>
          have hlt : lt' = lastTime := by
            rw [htlval] at hlast
            injection hlast
          subst hlt
          simp only [hnl, htlval] at hm1
          split at hm1
          · rename_i hguard
            have hle : lt' ≤ e.t := hlow e (List.mem_cons_self _ _)
            have hchain' : List.Chain' (fun a b : Int => a ≤ b) (times ++ [e.t]) := by
              rw [List.chain'_append]
              refine ⟨hchain, List.chain'_singleton _, ?_⟩
              intro x hx y hy
              have hx' : x = lt' := by
                rw [htlval] at hx
                exact (Option.mem_some_iff.mp hx).symm
              have hy' : y = e.t := by
                simp only [List.head?_cons] at hy
                exact (Option.mem_some_iff.mp hy).symm
              rw [hx', hy']
              exact hle
            have hnewlast : (times ++ [e.t]).getLast? = some e.t :=
              List.getLast?_concat _
            have htail' : ∀ w : Int, within = some w →
                List.Chain' (fun a b : Int => b - a ≤ w) (times ++ [e.t]).tail := by
              intro w hw
              rcases times with _ | ⟨t0, ts⟩
              · simp at h2
              · show List.Chain' _ (ts ++ [e.t])
                rw [List.chain'_append]
                refine ⟨htail w hw, List.chain'_singleton _, ?_⟩
                intro x hx y hy
                have hy' : y = e.t := by
                  simp only [List.head?_cons] at hy
                  exact (Option.mem_some_iff.mp hy).symm
                rcases ts with _ | ⟨t1, ts'⟩
                · simp at h2
                · rw [List.getLast?_cons_cons] at htlval
                  have hx' : x = lt' := by
                    rw [htlval] at hx
                    exact (Option.mem_some_iff.mp hx).symm
                  rw [hx', hy']
                  have hgw := hguard.2
                  rw [hw] at hgw
                  unfold withinOk at hgw
                  exact of_decide_eq_true hgw
            split at hm1
            · rcases List.mem_singleton.mp hm1 with rfl
              exact ⟨hchain', htail'⟩
            · refine ih (nodes ++ [e.v]) (times ++ [e.t]) e.t hnewlast ?_
                hchain' htail' hsorted' (fun f hf => hhead f hf) m hm1
              simp only [List.length_append, List.length_singleton]
              omega
          · simp at hm1
    · exact ih nodes times lastTime hlast h2 hchain htail hsorted'
        (fun f hf => hlow f (List.mem_cons_of_mem _ hf)) m hm1

theorem motifRoots_shape {len : Nat} {within : Option Int} :
    ∀ (edges : List (TEdge ν α)) (m : List ν × List Int),
      m ∈ motifRoots len within edges →
      m.1.length = len ∧ m.2.length = len ∧ m.2[0]? = m.2[1]? := by
  intro edges
  induction edges with
  | nil =>
    intro m hm
    simp [motifRoots] at hm
  | cons e rest ih =>
    intro m hm
    rw [motifRoots] at hm
    rcases List.mem_append.mp hm with hm1 | hm1
    · split at hm1
      · rename_i hemit
        rcases List.mem_singleton.mp hm1 with rfl
        exact ⟨hemit, hemit, rfl⟩
      · exact dfsLoop_shape rest [e.u, e.v] [e.t, e.t] rfl (by simp) rfl m hm1
    · exact ih m hm1

theorem motifRoots_times {len : Nat} {within : Option Int} :
    ∀ (edges : List (TEdge ν α)),
      edges.Pairwise (fun a b : TEdge ν α => a.t ≤ b.t) →
      ∀ m ∈ motifRoots len within edges,
        List.Chain' (fun a b : Int => a ≤ b) m.2 ∧
        ∀ w : Int, within = some w →
          List.Chain' (fun a b : Int => b - a ≤ w) m.2.tail := by
  intro edges
  induction edges with
  | nil =>
    intro _ m hm
    simp [motifRoots] at hm
  | cons e rest ih =>
    intro hsorted m hm
    rw [motifRoots] at hm
    rcases List.mem_append.mp hm with hm1 | hm1
    · split at hm1
      · rcases List.mem_singleton.mp hm1 with rfl
        exact ⟨List.chain'_pair.mpr (le_refl _),
          fun w _ => List.chain'_singleton _⟩
      · exact dfsLoop_times rest [e.u, e.v] [e.t, e.t] e.t rfl (by simp)
          (List.chain'_pair.mpr (le_refl _)) (fun w _ => List.chain'_singleton _)
          (List.pairwise_cons.mp hsorted).2
          (fun f hf => (List.pairwise_cons.mp hsorted).1 f hf) m hm1
    · exact ih (List.pairwise_cons.mp hsorted).2 m hm1
end MotifLemmas

/-- C10: every motif returned by `find_chain_motifs(length, ...)` with
`length ≥ 2` has exactly `length` nodes and exactly `length` timestamps
(not `length - 1`), and its first two timestamps are equal: the root seeds
the time list with the first edge's timestamp twice. -/
theorem C10_motif_shape {ν α : Type} [DecidableEq ν] [DecidableEq α]
    (ops : List (AddOp ν α)) (len : Nat) (within : Option Int)
    (window : Option (Int × Int)) (m : List ν × List Int)
    (hlen : 2 ≤ len)
    (hm : m ∈ (build ops).find_chain_motifs len within window) :
    m.1.length = len ∧ m.2.length = len ∧ m.2[0]? = m.2[1]? :=
  motifRoots_shape _ m hm

/-- Witness for C10 at a concrete input: edges `A->B,1`, `B->C,2`, `C->D,3`
with `length = 3`, `within = 2` return the motif `([A,B,C],[1,1,2])`: three
nodes, three timestamps, first two equal. -/
theorem C10_motif_shape_witness :
    ((["A", "B", "C"], ([1, 1, 2] : List Int)) : List String × List Int).1.length = 3 ∧
    (["A", "B", "C"], ([1, 1, 2] : List Int)).2.length = 3 ∧
    (["A", "B", "C"], ([1, 1, 2] : List Int)).2[0]? =
      (["A", "B", "C"], ([1, 1, 2] : List Int)).2[1]? :=
  C10_motif_shape
    [⟨"A", "B", 1, ([] : List (String × Int))⟩, ⟨"B", "C", 2, []⟩,
      ⟨"C", "D", 3, []⟩] 3 (some 2) none
    (["A", "B", "C"], [1, 1, 2]) (by decide) (by decide)

/-- C6 counterexample: one edge `A -> B` at time `1`, call
`find_chain_motifs(length=2, within=-1)`.  The motif `([A,B],[1,1])` is
returned — the base case emits before any `within` check — but its only
consecutive time pair differs by `0`, which is not `≤ -1`, so the claim's
bounded-difference property fails as stated. -/
theorem C6_motif_counterexample :
    (build [⟨"A", "B", 1, ([] : List (String × Int))⟩]).find_chain_motifs 2
      (some (-1)) none = [(["A", "B"], [1, 1])] ∧
    ¬((1 : Int) - 1 ≤ -1) := by
  refine ⟨by rfl, by decide⟩

/-- C6 amended: every returned motif's time sequence is non-decreasing;
when `within` is set, every consecutive pair after the first differs by at
most `within` (the first pair always has difference `0`, so it is only
`within`-bounded when `within ≥ 0`, in which case the whole sequence is
pairwise `within`-bounded). -/
theorem C6_motif_times {ν α : Type} [DecidableEq ν] [DecidableEq α]
    (ops : List (AddOp ν α)) (len : Nat) (within : Option Int)
    (window : Option (Int × Int)) (m : List ν × List Int)
    (hm : m ∈ (build ops).find_chain_motifs len within window) :
    List.Chain' (fun a b : Int => a ≤ b) m.2 ∧
    (∀ w : Int, within = some w →
      List.Chain' (fun a b : Int => b - a ≤ w) m.2.tail) ∧
    (∀ w : Int, within = some w → 0 ≤ w →
      List.Chain' (fun a b : Int => b - a ≤ w) m.2) := by
  haveI hTot : IsTotal (TEdge ν α) (fun a b => a.t ≤ b.t) :=
    ⟨fun a b => le_total a.t b.t⟩
  haveI hTr : IsTrans (TEdge ν α) (fun a b => a.t ≤ b.t) :=
    ⟨fun a b c hab hbc => le_trans hab hbc⟩
  have hsorted : (((build ops).edges_between
      (match window with
        | some (s, e) => ((some s : Option Int), (some e : Option Int))
        | none => (none, none)).1
      (match window with
        | some (s, e) => ((some s : Option Int), (some e : Option Int))
        | none => (none, none)).2).insertionSort
        (fun a b => a.t ≤ b.t)).Pairwise (fun a b : TEdge ν α => a.t ≤ b.t) :=
    List.sorted_insertionSort _ _
  have hmain := motifRoots_times _ hsorted m hm
  have hshape := @motifRoots_shape ν α _ _ len within _ m hm
  refine ⟨hmain.1, hmain.2, ?_⟩
  intro w hw h0w
  have htailch := hmain.2 w hw
  have hfirst := hshape.2.2
  rcases hm2 : m.2 with _ | ⟨t0, ts⟩
  · exact List.chain'_nil
  · rcases ts with _ | ⟨t1, ts'⟩
    · exact List.chain'_singleton _
    · rw [hm2] at hfirst htailch
      rw [List.chain'_cons]
      constructor
      · have ht01 : t0 = t1 := by
          simp only [List.getElem?_cons_zero, List.getElem?_cons_succ] at hfirst
          injection hfirst
        omega
      · exact htailch

/-- Witness for C6 amended at a concrete input: the motif
`([A,B,C],[1,1,2])` returned by `find_chain_motifs(3, within=2)` on
`A->B,1`, `B->C,2`, `C->D,3` is non-decreasing, its tail pairs are bounded
by `2`, and with `2 ≥ 0` all its pairs are bounded by `2`. -/
theorem C6_motif_times_witness :
    List.Chain' (fun a b : Int => a ≤ b) [1, 1, 2] ∧
    List.Chain' (fun a b : Int => b - a ≤ 2) ([1, 1, 2] : List Int).tail ∧
    List.Chain' (fun a b : Int => b - a ≤ 2) ([1, 1, 2] : List Int) :=
  have h := C6_motif_times
    [⟨"A", "B", 1, ([] : List (String × Int))⟩, ⟨"B", "C", 2, []⟩,
      ⟨"C", "D", 3, []⟩] 3 (some 2) none (["A", "B", "C"], [1, 1, 2])
    (by decide)
  ⟨h.1, h.2.1 2 rfl, h.2.2 2 rfl (by decide)⟩
